import Mathlib

/-!
# Verification of the Codify-Backend judging pipeline

Shallow embedding of the execution/judging core of the Codify backend
(`routes/submissions.js`, `routes/index.js`, `models/Submission.js`) and
proofs of the spec's testable properties over that embedding.

Statuses, error types and language identifiers are kept as the literal
strings the JavaScript source uses.  JavaScript numbers appearing in the
score formula are modelled exactly (the operands are small integers, the
floor of the quotient is Nat division).  External effects (the process
outcomes of `execAsync`, `Math.random`, the platform flag, the success of
fire-and-forget unlinks) are oracle parameters, so each code path of the
source is a value of the embedded function.
-/

namespace Codify

/-! ## Admission-controller semaphores (routes/index.js 15-44, submissions.js 19-47)

Both files define the identical counter + FIFO callback-queue class; the
state is `max`, `current` and the wait queue.  Waiting callers are
identified by their arrival number, assigned from `nextArrival` in request
order; `granted` records, in grant order, the callers that have been
handed a slot (immediately in `acquire`, or by `release` from the queue
head). -/

structure SemState where
  max : Nat
  current : Int
  queue : List Nat
  nextArrival : Nat
  granted : List Nat
  deriving Repr, DecidableEq

def SemState.init (max : Nat) : SemState :=
  { max := max, current := 0, queue := [], nextArrival := 0, granted := [] }

inductive SemEvent where
  | acquire
  | release
  deriving Repr, DecidableEq

/-- Models `acquire()`: if `current < max`, increment and resolve immediately;
otherwise push the resolver at the back of the queue. -/
def semAcquire (s : SemState) : SemState :=
  if s.current < (s.max : Int) then
    { s with current := s.current + 1,
             granted := s.granted ++ [s.nextArrival],
             nextArrival := s.nextArrival + 1 }
  else
    { s with queue := s.queue ++ [s.nextArrival],
             nextArrival := s.nextArrival + 1 }

/-- Models `release()`: decrement; if the queue is non-empty, re-increment and
resolve the caller shifted from the front of the queue. -/
def semRelease (s : SemState) : SemState :=
  let s1 := { s with current := s.current - 1 }
  match s1.queue with
  | [] => s1
  | q :: qs =>
      { s1 with current := s1.current + 1, granted := s1.granted ++ [q], queue := qs }

def semStep (s : SemState) : SemEvent → SemState
  | .acquire => semAcquire s
  | .release => semRelease s

def runSem (s : SemState) : List SemEvent → SemState
  | [] => s
  | e :: es => runSem (semStep s e) es

/-- A `release` is paired with an earlier grant: it is only issued while a
slot is actually held (`current ≥ 1`).  `acquire` is always permitted. -/
def validEvent (s : SemState) : SemEvent → Bool
  | .acquire => true
  | .release => 1 ≤ s.current

def validTrace (s : SemState) : List SemEvent → Bool
  | [] => true
  | e :: es => validEvent s e && validTrace (semStep s e) es

/-- Inductive invariant of the semaphore state. -/
structure SemInv (s : SemState) : Prop where
  current_nonneg : 0 ≤ s.current
  current_le : s.current ≤ (s.max : Int)
  queue_full : s.queue ≠ [] → s.current = (s.max : Int)
  queue_sorted : s.queue.Pairwise (· < ·)
  queue_lt_next : ∀ x ∈ s.queue, x < s.nextArrival
  granted_sorted : s.granted.Pairwise (· < ·)
  granted_lt_next : ∀ x ∈ s.granted, x < s.nextArrival
  granted_lt_queue : ∀ g ∈ s.granted, ∀ q ∈ s.queue, g < q

/-- Configured maximum of the interactive compile controller
(`new Semaphore(20)`, routes/index.js line 44). -/
def compilationSemaphoreMax : Nat := 20

/-- Configured maximum of the background judging controller
(`new SubmissionSemaphore(10)`, routes/submissions.js line 47). -/
def submissionSemaphoreMax : Nat := 10

/-! ## Java class-name extraction (submissions.js 784-796, index.js 371-383)

`extractJavaClassName` strips block comments, then line comments, then
returns the capture of `public\s+class\s+(\w+)` if it matches anywhere,
else the capture of `(?:^|\s)class\s+(\w+)`, else `null`. -/

def isSpaceChar (c : Char) : Bool :=
  c = ' ' || c = '\t' || c = '\n' || c = '\r' || c = '\x0b' || c = '\x0c'

/-- JavaScript `String.prototype.toLowerCase` on the language keys in
play (ASCII). -/
def toLowerStr (s : String) : String :=
  String.mk (s.data.map Char.toLower)

/-- JavaScript `String.prototype.trim`: strip leading and trailing
whitespace. -/
def trimStr (s : String) : String :=
  String.mk (((s.data.dropWhile isSpaceChar).reverse.dropWhile isSpaceChar).reverse)

def isWordChar (c : Char) : Bool :=
  c.isAlphanum || c = '_'

/-- Index of the first `*/` pair (the non-greedy close of the block-comment
regex). -/
def closeIdx (l : List Char) : Option Nat :=
  (l.zip l.tail).findIdx? (fun p => p.1 = '*' && p.2 = '/')

/-- The remainder after the first `*/`, when one exists. -/
def dropToClose (l : List Char) : Option (List Char) :=
  (closeIdx l).map (fun i => l.drop (i + 2))

/-- Worker for `stripBlock`.  Every step strictly shrinks the remaining
text, so `fuel := l.length` never runs out (`dropToClose_length`); the
fuel only makes the recursion structural. -/
def stripBlockFuel : Nat → List Char → List Char
  | 0, l => l
  | _ + 1, [] => []
  | fuel + 1, '/' :: '*' :: rest =>
      (match dropToClose rest with
       | some rest2 => stripBlockFuel fuel rest2
       | none => '/' :: '*' :: rest)
  | fuel + 1, c :: rest => c :: stripBlockFuel fuel rest

/-- Models `.replace(/\/\*[\s\S]*?\*\//g, '')`: each `/*` paired with the next
`*/` is removed; an unterminated `/*` is left in place (the regex does
not match it). -/
def stripBlock (l : List Char) : List Char :=
  stripBlockFuel l.length l

/-- Models `.replace(/\/\/.*$/gm, '')`: from each `//` to the end of its line.
The flag is true while inside a line comment being dropped. -/
def stripLine : Bool → List Char → List Char
  | _, [] => []
  | false, '/' :: '/' :: rest => stripLine true rest
  | false, c :: rest => c :: stripLine false rest
  | true, '\n' :: rest => '\n' :: stripLine false rest
  | true, _ :: rest => stripLine true rest

/-- Consume an exact literal. -/
def dropLiteral : List Char → List Char → Option (List Char)
  | [], l => some l
  | _ :: _, [] => none
  | p :: ps, c :: cs => if c = p then dropLiteral ps cs else none

/-- Consume `\s+` (at least one whitespace character, maximal munch; the
following regex atoms start with a non-space, so no backtracking). -/
def dropSpaces1 : List Char → Option (List Char)
  | [] => none
  | c :: rest => if isSpaceChar c then some (rest.dropWhile isSpaceChar) else none

/-- Capture `\w+`. -/
def takeWord1 (l : List Char) : Option String :=
  let w := l.takeWhile isWordChar
  if w.isEmpty then none else some (String.mk w)

/-- Try `public\s+class\s+(\w+)` anchored at this position. -/
def matchPublicClassAt (l : List Char) : Option String := do
  let r1 ← dropLiteral "public".data l
  let r2 ← dropSpaces1 r1
  let r3 ← dropLiteral "class".data r2
  let r4 ← dropSpaces1 r3
  takeWord1 r4

/-- Leftmost match of `public\s+class\s+(\w+)`. -/
def findPublicClass : List Char → Option String
  | [] => none
  | c :: rest =>
      match matchPublicClassAt (c :: rest) with
      | some w => some w
      | none => findPublicClass rest

/-- Try `class\s+(\w+)` anchored at this position. -/
def matchClassAt (l : List Char) : Option String := do
  let r1 ← dropLiteral "class".data l
  let r2 ← dropSpaces1 r1
  takeWord1 r2

/-- Leftmost match of `(?:^|\s)class\s+(\w+)`; the flag records whether
the current position is the start of the string or preceded by `\s`. -/
def findAnyClass : Bool → List Char → Option String
  | _, [] => none
  | atBound, c :: rest =>
      if atBound then
        match matchClassAt (c :: rest) with
        | some w => some w
        | none => findAnyClass (isSpaceChar c) rest
      else
        findAnyClass (isSpaceChar c) rest

def extractJavaClassName (code : String) : Option String :=
  let stripped := stripLine false (stripBlock code.data)
  match findPublicClass stripped with
  | some w => some w
  | none => findAnyClass true stripped

/-- The wrapper the interactive `/compile` endpoint synthesizes for Java
sources with no class declaration (index.js 393-397). -/
def javaWrapper (code : String) : String :=
  "public class Main \x7b\n    public static void main(String[] args) \x7b\n        "
    ++ code ++ "\n    \x7d\n\x7d"

structure JavaCompileSetup where
  className : String
  actualCode : String
  deriving Repr, DecidableEq

/-- The java branch of the `/compile` endpoint (index.js 385-401):
extracted class name kept with the raw code, or fallback `Main` with the
synthesized wrapper as the text actually written. -/
def compileEndpointJavaSetup (code : String) : JavaCompileSetup :=
  match extractJavaClassName code with
  | some n => { className := n, actualCode := code }
  | none => { className := "Main", actualCode := javaWrapper code }

/-! ## The judging pipeline: runTestCases (submissions.js 563-781)

External effects are oracle parameters: `compileOut` is the outcome of the
compile `execAsync`, `runOut i` the outcome of the per-case `execAsync`,
`randMem i` is `Math.floor(Math.random() * 1000)` (so `< 1000`),
`execTime i` the measured wall time, `isWin` is
`process.platform === 'win32'`, and `inputUnlinkOk i` tells whether the
fire-and-forget unlink of the per-case input file completed.  The
filesystem is the set of this attempt's temp paths that exist. -/

structure TestCase where
  input : String
  output : String
  deriving Repr, DecidableEq, Inhabited

inductive ExecOutcome where
  | ok (stdout stderr : String)
  | err (killed : Bool) (signal : Option String) (stdout stderr message : String)
  deriving Repr, DecidableEq, Inhabited

inductive CompileOutcome where
  | ok (stdout stderr : String)
  | err (stderr message : String)
  deriving Repr, DecidableEq, Inhabited

structure RunResult where
  status : String
  errorType : String := ""
  output : String := ""
  executionTime : Nat := 0
  memoryUsed : Nat := 0
  error : String := ""
  compilationError : String := ""
  deriving Repr, DecidableEq, Inhabited

/-- JavaScript `a || b` on strings: the empty string is falsy. -/
def jsOr (a b : String) : String := if a = "" then b else a

/-- One entry of the array returned when compilation fails
(submissions.js 671-679). -/
def compileFailResult (stderr message : String) : RunResult :=
  { status := "error", errorType := "compilation",
    error := jsOr stderr message,
    compilationError := jsOr stderr message,
    output := "", executionTime := 0, memoryUsed := 0 }

/-- Per-test-case processing of a successful `execAsync` (submissions.js
714-725): trimmed stdout against trimmed expected output gives
`passed`/`failed`, with the mock memory value
`Math.floor(Math.random() * 1000) + 500`. -/
def runOneCase (tc : TestCase) (stdout stderr : String) (randMem execTime : Nat) :
    RunResult :=
  let actualOutput := trimStr stdout
  let expectedOutput := trimStr tc.output
  { status := if actualOutput = expectedOutput then "passed" else "failed",
    output := actualOutput,
    executionTime := execTime,
    memoryUsed := randMem + 500,
    error := stderr }

/-- The exception the per-case `catch` block (line 727) itself raises:
its first statement `const executionTime = Date.now() - startTime`
(line 728) references `startTime`, which is declared with `const` inside
the `try` block (line 690) and is therefore out of scope in the `catch`
block.  So any exec error — a runtime failure or a timeout kill — makes
the handler throw before the intended `timeout`/`error` classification
(lines 735-750) can run. -/
def referenceErrorMsg : String := "ReferenceError: startTime is not defined"

/-- The run loop (lines 684-752) over the remaining test cases, `i` being
the index of the head.  A successful exec pushes one classified result; a
thrown exec error enters the `catch` block, which immediately raises
`ReferenceError` (see `referenceErrorMsg`), aborting the loop and
propagating out of `runTestCases` — modelled as `Except.error`. -/
def runLoop (runOut : Nat → ExecOutcome) (randMem execTime : Nat → Nat) :
    List TestCase → Nat → Except String (List RunResult)
  | [], _ => .ok []
  | tc :: rest, i =>
      match runOut i with
      | .ok stdout stderr =>
          match runLoop runOut randMem execTime rest (i + 1) with
          | .ok rs => .ok (runOneCase tc stdout stderr (randMem i) (execTime i) :: rs)
          | .error e => .error e
      | .err _ _ _ _ _ => .error referenceErrorMsg

inductive TempPath where
  | sourceFile
  | execFile
  | execExeFile
  | javaSubDir
  | javaSubDirFile (name : String)
  | inputFile (i : Nat)
  deriving Repr, DecidableEq

structure LangSetup where
  ext : String
  needsCompilation : Bool
  isJava : Bool
  className : String
  deriving Repr, DecidableEq

/-- The language switch (submissions.js 575-650).  For Java, the file
written is `<className>.java` inside a per-attempt subdirectory, where the
class name falls back to `Main` when extraction finds none; the raw code
is written unchanged for every language (line 654). -/
def langSetup (language code : String) : Option LangSetup :=
  match toLowerStr language with
  | "python" => some { ext := ".py", needsCompilation := false, isJava := false, className := "" }
  | "javascript" => some { ext := ".js", needsCompilation := false, isJava := false, className := "" }
  | "java" => some { ext := ".java", needsCompilation := true, isJava := true,
                     className := (extractJavaClassName code).getD "Main" }
  | "cpp" => some { ext := ".cpp", needsCompilation := true, isJava := false, className := "" }
  | "c" => some { ext := ".c", needsCompilation := true, isJava := false, className := "" }
  | "go" => some { ext := ".go", needsCompilation := false, isJava := false, className := "" }
  | "ruby" => some { ext := ".rb", needsCompilation := false, isJava := false, className := "" }
  | "php" => some { ext := ".php", needsCompilation := false, isJava := false, className := "" }
  | _ => none

def validLanguages : List String :=
  ["python", "javascript", "java", "cpp", "c", "go", "ruby", "php"]

/-- Paths removed by `fs.rm(uniqueSubDir, # recursive)` for Java: the
whole per-attempt subdirectory, including the source file written inside
it and any compiled class files. -/
def TempPath.underJavaSubDir : TempPath → Bool
  | .javaSubDir => true
  | .javaSubDirFile _ => true
  | .sourceFile => true
  | _ => false

/-- The temp resources owned by one attempt that the claim requires gone
after the attempt: the source file, compiled executables (both platform
variants), and the Java subdirectory with its contents.  The per-case
stdin files are not attempt resources in this sense (their unlink is
fire-and-forget). -/
def TempPath.isAttemptResource : TempPath → Bool
  | .sourceFile => true
  | .execFile => true
  | .execExeFile => true
  | .javaSubDir => true
  | .javaSubDirFile _ => true
  | .inputFile _ => false

/-- The `finally` cleanup block (submissions.js 754-778).  Note the
executable cleanup compares the raw `language` against `'cpp'`/`'c'`
(line 765) while the switch compared `language.toLowerCase()`. -/
def cleanupFs (language : String) (setup : LangSetup) (fsIn : List TempPath) : List TempPath :=
  if setup.isJava then
    fsIn.filter (fun p => !p.underJavaSubDir)
  else
    let fs1 := fsIn.filter (fun p => p != TempPath.sourceFile)
    if setup.needsCompilation && (language == "cpp" || language == "c") then
      (fs1.filter (fun p => p != TempPath.execFile)).filter
        (fun p => p != TempPath.execExeFile)
    else fs1

/-- Input files of the run loop that still exist when the loop ends.  A
stdin file is written for a non-blank input (line 697).  On a successful
exec its unlink is fire-and-forget (`fs.unlink(inputFile).catch(...)`,
line 711), so it survives exactly when that unlink did not complete
(`inputUnlinkOk i = false`).  On a thrown exec error the `catch` block
crashes on its first line, before its own unlink (lines 731-733), so the
failing case's input file always survives and no later case runs. -/
def loopInputLeftovers (inputUnlinkOk : Nat → Bool) (runOut : Nat → ExecOutcome) :
    List TestCase → Nat → List TempPath
  | [], _ => []
  | tc :: rest, i =>
      match runOut i with
      | .ok _ _ =>
          (if trimStr tc.input != "" && !inputUnlinkOk i then [TempPath.inputFile i]
           else [])
            ++ loopInputLeftovers inputUnlinkOk runOut rest (i + 1)
      | .err _ _ _ _ _ =>
          if trimStr tc.input != "" then [TempPath.inputFile i] else []

/-- Per-test-case `execAsync` budget (line 703). -/
def perTestCaseTimeoutMs : Nat := 10000

/-- Compile-step `execAsync` budget (line 660). -/
def compileTimeoutMs : Nat := 60000

structure RunOut where
  outcome : Except String (List RunResult)
  fs : List TempPath
  writtenSource : String
  deriving Repr

/-- Models `runTestCases(code, language, testCases)` (submissions.js
563-781).  An unsupported language throws before any file is written (the
outer `Except.error`).  Otherwise the source text is written verbatim
(`fs.writeFile(filename, code)`, line 654); if the language compiles and
the compile step throws, every test case is mapped to a compilation-error
result without being run; otherwise the run loop executes until it either
finishes (`outcome = Except.ok results`) or a case's exec error makes the
`catch` block raise `ReferenceError` (`outcome = Except.error`, see
`referenceErrorMsg`), which propagates to the caller.  The `finally`
cleanup executes on every one of these exit paths, and `fs` is what
remains of this attempt's temp paths afterwards. -/
def runTestCases (language code : String) (testCases : List TestCase) (isWin : Bool)
    (compileOut : CompileOutcome) (runOut : Nat → ExecOutcome)
    (randMem execTime : Nat → Nat) (inputUnlinkOk : Nat → Bool) :
    Except String RunOut :=
  match langSetup language code with
  | none => .error ("Unsupported language: " ++ language)
  | some setup =>
      let fs0 : List TempPath :=
        if setup.isJava then [.javaSubDir, .sourceFile] else [.sourceFile]
      if setup.needsCompilation then
        match compileOut with
        | .err stderr message =>
            .ok { outcome :=
                    Except.ok (testCases.map (fun _ => compileFailResult stderr message)),
                  fs := cleanupFs language setup fs0,
                  writtenSource := code }
        | .ok _ _ =>
            let fs1 := fs0 ++
              (if setup.isJava then [.javaSubDirFile (setup.className ++ ".class")]
               else [if isWin then .execExeFile else .execFile])
            let fs2 := fs1 ++ loopInputLeftovers inputUnlinkOk runOut testCases 0
            .ok { outcome := runLoop runOut randMem execTime testCases 0,
                  fs := cleanupFs language setup fs2,
                  writtenSource := code }
      else
        let fs2 := fs0 ++ loopInputLeftovers inputUnlinkOk runOut testCases 0
        .ok { outcome := runLoop runOut randMem execTime testCases 0,
              fs := cleanupFs language setup fs2,
              writtenSource := code }

/-! ## Result aggregation and the terminal verdict
(processSubmissionAsync, submissions.js 463-560) -/

structure TCResult where
  testCaseIndex : Nat
  input : String
  expectedOutput : String
  actualOutput : String
  status : String
  executionTime : Nat
  memoryUsed : Nat
  errorMessage : String
  deriving Repr, DecidableEq

structure Aggregate where
  passedCount : Nat
  hasCompilationError : Bool
  hasRuntimeError : Bool
  hasTimeoutError : Bool
  hasMemoryError : Bool
  testCaseResults : List TCResult
  finalStatus : String
  score : Nat
  deriving Repr, DecidableEq

/-! ### IEEE-754 binary64 score arithmetic

Line 521, `Math.floor((passedCount / testCases.length) * maxScore)`, is
evaluated by JavaScript in IEEE-754 binary64: the division is rounded to
the nearest representable double (ties to even), the product is rounded
again, and `Math.floor` truncates.  The model below performs exactly this
computation over `Nat`: a nonnegative finite double is a dyadic
`mant * 2 ^ exp`, and `roundFrac a b` is the correctly rounded quotient
`a / b`.  Double rounding makes the persisted score differ from the exact
`passedCount * maxScore / total` at reachable inputs (29 of 50 cases at
100 points persists 57, the exact floor is 58). -/

/-- A nonnegative finite binary64 value `mant * 2 ^ exp`.  `roundFrac`
produces `mant` with `2 ^ 52 ≤ mant ≤ 2 ^ 53` for a nonzero input. -/
structure F64 where
  mant : Nat
  exp : Int
  deriving Repr, DecidableEq

/-- Fuel-based floor base-2 logarithm.  Structural recursion on the fuel
so that the kernel can evaluate it (`Nat.log2` recurses by a well-founded
measure, which `decide` cannot unfold). -/
def natLog2Fuel : Nat → Nat → Nat
  | 0, _ => 0
  | fuel + 1, n => if 2 ≤ n then natLog2Fuel fuel (n / 2) + 1 else 0

/-- Floor base-2 logarithm of a natural number (0 for inputs 0 and 1). -/
def natLog2 (n : Nat) : Nat := natLog2Fuel n n

/-- Floor base-2 logarithm of the positive fraction `a / b`. -/
def fracLog2 (a b : Nat) : Int :=
  if b ≤ a then (natLog2 (a / b) : Int)
  else
    let j := natLog2 (b / a)
    if b = a * 2 ^ j then -(j : Int) else -(j : Int) - 1

/-- Round the fraction `A / B` to the nearest integer, ties to even. -/
def roundMant (A B : Nat) : Nat :=
  let fl := A / B
  let rem := A % B
  if 2 * rem < B then fl
  else if B < 2 * rem then fl + 1
  else if fl % 2 = 0 then fl else fl + 1

/-- The binary64 quotient `a / b` for `b > 0` (round to nearest, ties to
even): the JavaScript division `passedCount / testCases.length`.  The
53-bit significand is the integer rounding of `a / b` scaled into
`[2 ^ 52, 2 ^ 53)`. -/
def roundFrac (a b : Nat) : F64 :=
  if a = 0 then ⟨0, 0⟩
  else
    let e : Int := fracLog2 a b - 52
    let A : Nat := if e ≤ 0 then a * 2 ^ (-e).toNat else a
    let B : Nat := if e ≤ 0 then b else b * 2 ^ e.toNat
    ⟨roundMant A B, e⟩

/-- The binary64 product of the double `d` with the integer `m`
(`* maxScore` on line 521; every schema `maxScore ≤ 2 ^ 53` is itself
exactly representable): the exact product `d.mant * m * 2 ^ d.exp`
rounded once more. -/
def jsMul (d : F64) (m : Nat) : F64 :=
  let r := roundFrac (d.mant * m) 1
  ⟨r.mant, r.exp + d.exp⟩

/-- `Math.floor` of a nonnegative finite double. -/
def floorF64 (d : F64) : Nat :=
  if 0 ≤ d.exp then d.mant * 2 ^ d.exp.toNat else d.mant / 2 ^ (-d.exp).toNat

/-- `Math.floor((p / t) * m)` exactly as IEEE-754 binary64 evaluates it
(line 521; the submit handler guarantees `t ≥ 1`). -/
def jsScore (p t m : Nat) : Nat := floorF64 (jsMul (roundFrac p t) m)

/-- Rational value of a modelled double. -/
def valF (d : F64) : ℚ := (d.mant : ℚ) * (2 : ℚ) ^ d.exp

/-- The result-processing map, the final-status priority chain and the
score formula (lines 481-522).  The integer counts and the status chain
are exact in JavaScript doubles; the score line
`Math.floor((passedCount / testCases.length) * maxScore)` is evaluated by
`jsScore`, the exact model of its two correctly rounded binary64
operations and the floor. -/
def aggregateResults (results : List RunResult) (testCases : List TestCase)
    (maxScore : Nat) : Aggregate :=
  let passedCount := results.countP (fun r => r.status == "passed")
  let hasCompilationError :=
    results.any (fun r => r.status == "error" && r.errorType == "compilation")
  let hasRuntimeError :=
    results.any (fun r => r.status == "error" && r.errorType == "runtime")
  let hasTimeoutError := results.any (fun r => r.status == "timeout")
  let hasMemoryError := results.any (fun r => r.status == "memory_exceeded")
  let testCaseResults := (results.zip (List.range results.length)).map (fun p =>
    { testCaseIndex := p.2,
      input := (testCases.getD p.2 default).input,
      expectedOutput := (testCases.getD p.2 default).output,
      actualOutput := p.1.output,
      status := p.1.status,
      executionTime := p.1.executionTime,
      memoryUsed := p.1.memoryUsed,
      errorMessage := p.1.error })
  let finalStatus :=
    if hasCompilationError then "compilation_error"
    else if hasRuntimeError then "runtime_error"
    else if hasTimeoutError then "time_limit_exceeded"
    else if hasMemoryError then "memory_limit_exceeded"
    else if passedCount = testCases.length then "accepted"
    else "wrong_answer"
  let score := jsScore passedCount testCases.length maxScore
  { passedCount := passedCount,
    hasCompilationError := hasCompilationError,
    hasRuntimeError := hasRuntimeError,
    hasTimeoutError := hasTimeoutError,
    hasMemoryError := hasMemoryError,
    testCaseResults := testCaseResults,
    finalStatus := finalStatus,
    score := score }

/-- Where, if anywhere, the single unexpected exception of a judging
attempt is thrown: while evaluating (`runTestCases`), while aggregating
results, or while persisting. -/
inductive FailPoint where
  | noFailure
  | duringEvaluate
  | duringAggregate
  | duringPersist
  deriving Repr, DecidableEq

/-- The protected body of `processSubmissionAsync` (the `try` block,
lines 466-543): `Except.error` models the thrown exception. -/
def runJudgingBody (fail : FailPoint) (results : List RunResult)
    (testCases : List TestCase) (maxScore : Nat) : Except Unit String :=
  match fail with
  | .noFailure => .ok (aggregateResults results testCases maxScore).finalStatus
  | _ => .error ()

structure ProcOut where
  finalStatus : String
  semaphoreReleased : Bool
  deriving Repr, DecidableEq

/-- Models `processSubmissionAsync` around its body (lines 463-560): the `catch`
handler (544-556) rewrites the submission to `runtime_error`; the
`finally` (557-559) releases the judging semaphore slot on both branches,
which is what `semaphoreReleased := true` on both match arms records. -/
def processSubmissionAsync (fail : FailPoint) (results : List RunResult)
    (testCases : List TestCase) (maxScore : Nat) : ProcOut :=
  match runJudgingBody fail results testCases maxScore with
  | .ok st => { finalStatus := st, semaphoreReleased := true }
  | .error _ => { finalStatus := "runtime_error", semaphoreReleased := true }

/-- The `timeout` classification condition of the `catch` block (line
738): the exec error's `killed` flag together with a SIGTERM or SIGKILL
signal.  This code is unreachable: the `catch` block crashes on line 728
before evaluating it (see `referenceErrorMsg`). -/
def isKilledTimeout : ExecOutcome → Bool
  | .ok _ _ => false
  | .err killed signal _ _ _ =>
      killed && (signal == some "SIGTERM" || signal == some "SIGKILL")

/-! ## Supporting lemmas -/

theorem dropToClose_length {l l' : List Char} (h : dropToClose l = some l') :
    l'.length < l.length := by
  simp only [dropToClose, Option.map_eq_some'] at h
  obtain ⟨i, hi, rfl⟩ := h
  have hnil : l ≠ [] := by
    intro hl
    subst hl
    simp [closeIdx] at hi
  have hpos : 0 < l.length := List.length_pos.mpr hnil
  simp only [List.length_drop]
  omega

theorem semInv_init (max : Nat) : SemInv (SemState.init max) := by
  constructor <;> simp [SemState.init]

theorem semInv_step {s : SemState} (inv : SemInv s) (e : SemEvent)
    (hv : validEvent s e = true) : SemInv (semStep s e) := by
  cases e with
  | acquire =>
      by_cases h : s.current < (s.max : Int)
      · refine ⟨?_, ?_, ?_, ?_, ?_, ?_, ?_, ?_⟩ <;>
          simp only [semStep, semAcquire, if_pos h]
        · exact le_trans inv.current_nonneg (by omega)
        · omega
        · intro hq
          have := inv.queue_full hq
          omega
        · exact inv.queue_sorted
        · intro x hx; exact Nat.lt_succ_of_lt (inv.queue_lt_next x hx)
        · refine List.pairwise_append.mpr ⟨inv.granted_sorted, by simp, ?_⟩
          intro a ha b hb
          simp only [List.mem_singleton] at hb
          subst hb
          exact inv.granted_lt_next a ha
        · intro x hx
          rcases List.mem_append.mp hx with h1 | h1
          · exact Nat.lt_succ_of_lt (inv.granted_lt_next x h1)
          · simp only [List.mem_singleton] at h1; omega
        · intro g hg q hq
          rcases List.mem_append.mp hg with h1 | h1
          · exact inv.granted_lt_queue g h1 q hq
          · simp only [List.mem_singleton] at h1
            subst h1
            exact absurd (inv.queue_full (List.ne_nil_of_mem hq)) (by omega)
      · refine ⟨?_, ?_, ?_, ?_, ?_, ?_, ?_, ?_⟩ <;>
          simp only [semStep, semAcquire, if_neg h]
        · exact inv.current_nonneg
        · exact inv.current_le
        · intro _
          have := inv.current_le
          omega
        · refine List.pairwise_append.mpr ⟨inv.queue_sorted, by simp, ?_⟩
          intro a ha b hb
          simp only [List.mem_singleton] at hb
          subst hb
          exact inv.queue_lt_next a ha
        · intro x hx
          rcases List.mem_append.mp hx with h1 | h1
          · exact Nat.lt_succ_of_lt (inv.queue_lt_next x h1)
          · simp only [List.mem_singleton] at h1; omega
        · exact inv.granted_sorted
        · intro x hx; exact Nat.lt_succ_of_lt (inv.granted_lt_next x hx)
        · intro g hg q hq
          rcases List.mem_append.mp hq with h1 | h1
          · exact inv.granted_lt_queue g hg q h1
          · simp only [List.mem_singleton] at h1
            subst h1
            exact inv.granted_lt_next g hg
  | release =>
      simp only [validEvent, decide_eq_true_eq] at hv
      cases hq : s.queue with
      | nil =>
          refine ⟨?_, ?_, ?_, ?_, ?_, ?_, ?_, ?_⟩ <;>
            simp only [semStep, semRelease, hq]
          · omega
          · have := inv.current_le; omega
          · intro h; exact absurd rfl h
          · exact List.Pairwise.nil
          · simp
          · exact inv.granted_sorted
          · exact inv.granted_lt_next
          · simp
      | cons q qs =>
          have hsq := inv.queue_sorted
          have hql := inv.queue_lt_next
          have hgq := inv.granted_lt_queue
          rw [hq] at hsq hql hgq
          refine ⟨?_, ?_, ?_, ?_, ?_, ?_, ?_, ?_⟩ <;>
            simp only [semStep, semRelease, hq]
          · omega
          · have := inv.current_le; omega
          · intro hne
            have := inv.queue_full (by rw [hq]; simp)
            omega
          · exact (List.pairwise_cons.mp hsq).2
          · intro x hx; exact hql x (List.mem_cons_of_mem q hx)
          · refine List.pairwise_append.mpr ⟨inv.granted_sorted, by simp, ?_⟩
            intro a ha b hb
            simp only [List.mem_singleton] at hb
            subst hb
            exact hgq a ha b (List.mem_cons_self b qs)
          · intro x hx
            rcases List.mem_append.mp hx with h1 | h1
            · exact inv.granted_lt_next x h1
            · simp only [List.mem_singleton] at h1
              subst h1
              exact hql x (List.mem_cons_self x qs)

          · intro g hg p hp
            rcases List.mem_append.mp hg with h1 | h1
            · exact hgq g h1 p (List.mem_cons_of_mem q hp)
            · simp only [List.mem_singleton] at h1
              subst h1
              exact (List.pairwise_cons.mp hsq).1 p hp

theorem semInv_run {s : SemState} (inv : SemInv s) (events : List SemEvent)
    (hv : validTrace s events = true) : SemInv (runSem s events) := by
  induction events generalizing s with
  | nil => exact inv
  | cons e es ih =>
      simp only [validTrace, Bool.and_eq_true] at hv
      exact ih (semInv_step inv e hv.1) hv.2

theorem runLoop_ok_length {runOut : Nat → ExecOutcome} {randMem execTime : Nat → Nat}
    {l : List TestCase} {i : Nat} {rs : List RunResult}
    (h : runLoop runOut randMem execTime l i = Except.ok rs) :
    rs.length = l.length := by
  induction l generalizing i rs with
  | nil =>
      simp only [runLoop, Except.ok.injEq] at h
      rw [← h]
      rfl
  | cons tc rest ih =>
      cases hro : runOut i with
      | ok so se =>
          cases hrec : runLoop runOut randMem execTime rest (i + 1) with
          | ok rs2 =>
              simp only [runLoop, hro, hrec, Except.ok.injEq] at h
              rw [← h]
              simp [ih hrec]
          | error e => simp [runLoop, hro, hrec] at h
      | err k sg o e m => simp [runLoop, hro] at h

theorem runLoop_ok_mem {runOut : Nat → ExecOutcome} {randMem execTime : Nat → Nat}
    {l : List TestCase} {i : Nat} {rs : List RunResult}
    (h : runLoop runOut randMem execTime l i = Except.ok rs) :
    ∀ r ∈ rs, ∃ j tc stdout stderr,
      r = runOneCase tc stdout stderr (randMem j) (execTime j) := by
  induction l generalizing i rs with
  | nil =>
      simp only [runLoop, Except.ok.injEq] at h
      rw [← h]
      intro r hr
      simp at hr
  | cons tc rest ih =>
      cases hro : runOut i with
      | ok so se =>
          cases hrec : runLoop runOut randMem execTime rest (i + 1) with
          | ok rs2 =>
              simp only [runLoop, hro, hrec, Except.ok.injEq] at h
              rw [← h]
              intro r hr
              rcases List.mem_cons.mp hr with rfl | hmem
              · exact ⟨i, tc, so, se, rfl⟩
              · exact ih hrec r hmem
          | error e => simp [runLoop, hro, hrec] at h
      | err k sg o e m => simp [runLoop, hro] at h

theorem runOneCase_status (tc : TestCase) (stdout stderr : String)
    (randMem execTime : Nat) :
    (runOneCase tc stdout stderr randMem execTime).status = "passed" ∨
    (runOneCase tc stdout stderr randMem execTime).status = "failed" := by
  simp only [runOneCase]
  split_ifs <;> simp

theorem runOneCase_memory (tc : TestCase) (stdout stderr : String)
    (randMem execTime : Nat) :
    (runOneCase tc stdout stderr randMem execTime).memoryUsed = randMem + 500 := rfl

theorem mem_loopInputLeftovers {inputUnlinkOk : Nat → Bool}
    {runOut : Nat → ExecOutcome} {l : List TestCase} {i : Nat} {p : TempPath}
    (h : p ∈ loopInputLeftovers inputUnlinkOk runOut l i) :
    ∃ j, p = TempPath.inputFile j := by
  induction l generalizing i with
  | nil => simp [loopInputLeftovers] at h
  | cons tc rest ih =>
      cases hro : runOut i with
      | ok so se =>
          simp only [loopInputLeftovers, hro] at h
          rcases List.mem_append.mp h with h1 | h1
          · split_ifs at h1
            · simp only [List.mem_singleton] at h1
              exact ⟨i, h1⟩
            · simp at h1
          · exact ih h1
      | err k sg o e m =>
          simp only [loopInputLeftovers, hro] at h
          split_ifs at h
          · simp only [List.mem_singleton] at h
            exact ⟨i, h⟩
          · simp at h

theorem cleanupFs_subset {language : String} {setup : LangSetup} {fsIn : List TempPath}
    {p : TempPath} (h : p ∈ cleanupFs language setup fsIn) : p ∈ fsIn := by
  simp only [cleanupFs] at h
  split_ifs at h <;> simp_all [List.mem_filter]

theorem cleanupFs_not_source (language : String) (setup : LangSetup)
    (fsIn : List TempPath) :
    TempPath.sourceFile ∉ cleanupFs language setup fsIn := by
  simp only [cleanupFs]
  split_ifs <;> simp [List.mem_filter, TempPath.underJavaSubDir]

theorem cleanupFs_java {language : String} {setup : LangSetup} (fsIn : List TempPath)
    (hj : setup.isJava = true) {p : TempPath} (hp : p.underJavaSubDir = true) :
    p ∉ cleanupFs language setup fsIn := by
  simp [cleanupFs, hj, List.mem_filter, hp]

theorem cleanupFs_exec {language : String} {setup : LangSetup} (fsIn : List TempPath)
    (hj : setup.isJava = false)
    (hc : (setup.needsCompilation && (language == "cpp" || language == "c")) = true) :
    TempPath.execFile ∉ cleanupFs language setup fsIn ∧
      TempPath.execExeFile ∉ cleanupFs language setup fsIn := by
  simp only [cleanupFs, hj, Bool.false_eq_true, if_false, hc, if_true]
  constructor <;> simp [List.mem_filter]

theorem finalStatus_mem_terminal (results : List RunResult) (testCases : List TestCase)
    (maxScore : Nat) :
    (aggregateResults results testCases maxScore).finalStatus ∈
      ["compilation_error", "runtime_error", "time_limit_exceeded",
       "memory_limit_exceeded", "accepted", "wrong_answer"] := by
  simp only [aggregateResults]
  split_ifs <;> simp

theorem semStep_max (s : SemState) (e : SemEvent) : (semStep s e).max = s.max := by
  cases e with
  | acquire =>
      simp only [semStep, semAcquire]
      split_ifs <;> rfl
  | release =>
      simp only [semStep, semRelease]
      split <;> rfl

theorem runSem_max (s : SemState) (events : List SemEvent) :
    (runSem s events).max = s.max := by
  induction events generalizing s with
  | nil => rfl
  | cons e es ih => rw [runSem, ih, semStep_max]

/-- Case inversion for a successful `runTestCases` call: the language
resolved, the raw code is the written source, and the call either
short-circuited on a compile failure or ran the per-case loop. -/
theorem runTestCases_ok_inv {language code : String} {testCases : List TestCase}
    {isWin : Bool} {compileOut : CompileOutcome} {runOut : Nat → ExecOutcome}
    {randMem execTime : Nat → Nat} {inputUnlinkOk : Nat → Bool} {out : RunOut}
    (h : runTestCases language code testCases isWin compileOut runOut randMem
        execTime inputUnlinkOk = Except.ok out) :
    ∃ setup, langSetup language code = some setup ∧
      out.writtenSource = code ∧
      ((∃ stderr message,
          setup.needsCompilation = true ∧
          compileOut = CompileOutcome.err stderr message ∧
          out.outcome =
            Except.ok (testCases.map (fun _ => compileFailResult stderr message)) ∧
          out.fs = cleanupFs language setup
            (if setup.isJava then [TempPath.javaSubDir, TempPath.sourceFile]
             else [TempPath.sourceFile])) ∨
       (out.outcome = runLoop runOut randMem execTime testCases 0 ∧
        ((setup.needsCompilation = true ∧
           (∃ stdout stderr, compileOut = CompileOutcome.ok stdout stderr) ∧
           out.fs = cleanupFs language setup
             (((if setup.isJava then [TempPath.javaSubDir, TempPath.sourceFile]
                else [TempPath.sourceFile]) ++
               (if setup.isJava then
                  [TempPath.javaSubDirFile (setup.className ++ ".class")]
                else [if isWin then TempPath.execExeFile else TempPath.execFile])) ++
              loopInputLeftovers inputUnlinkOk runOut testCases 0)) ∨
         (setup.needsCompilation = false ∧
           out.fs = cleanupFs language setup
             ((if setup.isJava then [TempPath.javaSubDir, TempPath.sourceFile]
               else [TempPath.sourceFile]) ++
              loopInputLeftovers inputUnlinkOk runOut testCases 0))))) := by
  cases hset : langSetup language code with
  | none =>
      rw [runTestCases, hset] at h
      exact absurd h (by simp)
  | some setup =>
      rw [runTestCases, hset] at h
      refine ⟨setup, rfl, ?_, ?_⟩
      · cases hnc : setup.needsCompilation with
        | true =>
            simp only [hnc, if_true] at h
            cases compileOut with
            | ok so se =>
                simp only [Except.ok.injEq] at h
                rw [← h]
            | err st me =>
                simp only [Except.ok.injEq] at h
                rw [← h]
        | false =>
            simp only [hnc, Bool.false_eq_true, if_false] at h
            simp only [Except.ok.injEq] at h
            rw [← h]
      · cases hnc : setup.needsCompilation with
        | true =>
            simp only [hnc, if_true] at h
            cases compileOut with
            | ok so se =>
                simp only [Except.ok.injEq] at h
                right
                rw [← h]
                exact ⟨rfl, Or.inl ⟨rfl, ⟨so, se, rfl⟩, rfl⟩⟩
            | err st me =>
                simp only [Except.ok.injEq] at h
                left
                rw [← h]
                exact ⟨st, me, rfl, rfl, rfl, rfl⟩
        | false =>
            simp only [hnc, Bool.false_eq_true, if_false] at h
            simp only [Except.ok.injEq] at h
            right
            rw [← h]
            exact ⟨rfl, Or.inr ⟨rfl, rfl⟩⟩

/-! ### Facts about the binary64 score arithmetic -/

theorem roundMant_le {A B N : Nat} (hB : 0 < B) (h : A ≤ N * B) :
    roundMant A B ≤ N := by
  have hdm : B * (A / B) + A % B = A := Nat.div_add_mod A B
  have hfl : A / B ≤ N := by
    have h2 : A / B ≤ N * B / B := Nat.div_le_div_right h
    rwa [Nat.mul_div_cancel _ hB] at h2
  have h' : A ≤ B * N := by rw [Nat.mul_comm]; exact h
  have hup : 0 < A % B → A / B + 1 ≤ N := by
    intro hr
    rcases Nat.lt_or_ge (A / B) N with hlt | hge
    · omega
    · have heq : A / B = N := le_antisymm hfl hge
      rw [heq] at hdm
      omega
  simp only [roundMant]
  split_ifs <;> first | exact hfl | exact hup (by omega)

theorem roundMant_exact {A B : Nat} (hB : 0 < B) (hdvd : B ∣ A) :
    roundMant A B = A / B := by
  have hr : A % B = 0 := Nat.dvd_iff_mod_eq_zero.mp hdvd
  simp [roundMant, hr, hB]

theorem roundFrac_cases {a b : Nat} (ha : 0 < a) (hb : 0 < b) :
    ∃ A B : Nat, 0 < B ∧
      roundFrac a b = ⟨roundMant A B, fracLog2 a b - 52⟩ ∧
      (A : ℚ) / B = ((a : ℚ) / b) * (2 : ℚ) ^ (-(fracLog2 a b - 52)) := by
  rw [roundFrac, if_neg (Nat.pos_iff_ne_zero.mp ha)]
  set e : Int := fracLog2 a b - 52 with he
  by_cases hle : e ≤ 0
  · refine ⟨a * 2 ^ (-e).toNat, b, hb, by simp [hle], ?_⟩
    push_cast
    rw [← zpow_natCast (2:ℚ) (-e).toNat, Int.toNat_of_nonneg (by omega : (0:Int) ≤ -e)]
    ring
  · refine ⟨a, b * 2 ^ e.toNat, by positivity, by simp [hle], ?_⟩
    push_cast
    rw [← zpow_natCast (2:ℚ) e.toNat, Int.toNat_of_nonneg (by omega : (0:Int) ≤ e)]
    rw [zpow_neg, div_eq_mul_inv, mul_inv, div_eq_mul_inv]
    ring

theorem natLog2Fuel_spec (fuel : Nat) : ∀ n, 1 ≤ n → n ≤ fuel →
    2 ^ natLog2Fuel fuel n ≤ n ∧ n < 2 ^ (natLog2Fuel fuel n + 1) := by
  induction fuel with
  | zero => intro n h1 h2; omega
  | succ fuel ih =>
    intro n h1 h2
    by_cases h2n : 2 ≤ n
    · obtain ⟨hlo, hhi⟩ := ih (n / 2) (by omega) (by omega)
      have hstep : natLog2Fuel (fuel + 1) n = natLog2Fuel fuel (n / 2) + 1 := by
        simp [natLog2Fuel, h2n]
      rw [hstep]
      set k := natLog2Fuel fuel (n / 2) with hk
      have hp : (2:Nat) ^ (k + 1) = 2 ^ k * 2 := pow_succ 2 k
      have hp2 : (2:Nat) ^ (k + 1 + 1) = 2 ^ (k + 1) * 2 := pow_succ 2 (k + 1)
      omega
    · have hn1 : n = 1 := by omega
      subst hn1
      norm_num [natLog2Fuel]

theorem natLog2_spec {n : Nat} (h : 1 ≤ n) :
    2 ^ natLog2 n ≤ n ∧ n < 2 ^ (natLog2 n + 1) :=
  natLog2Fuel_spec n n h le_rfl

theorem natLog2_unique {n c : Nat} (h1 : 2 ^ c ≤ n) (h2 : n < 2 ^ (c + 1)) :
    natLog2 n = c := by
  have hcpos : 0 < 2 ^ c := pow_pos (by norm_num) c
  have hn1 : 1 ≤ n := by omega
  obtain ⟨hlo, hhi⟩ := natLog2_spec hn1
  rcases Nat.lt_trichotomy (natLog2 n) c with hlt | heq | hgt
  · have hle : 2 ^ (natLog2 n + 1) ≤ 2 ^ c := Nat.pow_le_pow_right (by norm_num) (by omega)
    omega
  · exact heq
  · have hle : 2 ^ (c + 1) ≤ 2 ^ natLog2 n := Nat.pow_le_pow_right (by norm_num) (by omega)
    omega

theorem fracLog2_spec {a b : Nat} (ha : 0 < a) (hb : 0 < b) :
    (2 : ℚ) ^ fracLog2 a b ≤ (a : ℚ) / b ∧ (a : ℚ) / b < (2 : ℚ) ^ (fracLog2 a b + 1) := by
  have hbq : (0 : ℚ) < b := by exact_mod_cast hb
  have haq : (0 : ℚ) < a := by exact_mod_cast ha
  rw [fracLog2]
  by_cases hba : b ≤ a
  · rw [if_pos hba]
    have hq1 : 1 ≤ a / b := (Nat.one_le_div_iff hb).mpr hba
    obtain ⟨hlo, hhi⟩ := natLog2_spec hq1
    set k := natLog2 (a / b) with hk
    have hlo' : 2 ^ k * b ≤ a := by
      calc 2 ^ k * b ≤ a / b * b := Nat.mul_le_mul_right b hlo
        _ ≤ a := Nat.div_mul_le_self a b
    have hhi' : a < 2 ^ (k + 1) * b := (Nat.div_lt_iff_lt_mul hb).mp hhi
    constructor
    · rw [zpow_natCast, le_div_iff hbq]
      exact_mod_cast hlo'
    · rw [show (k : Int) + 1 = ((k + 1 : Nat) : Int) by push_cast; ring]
      rw [zpow_natCast, div_lt_iff hbq]
      exact_mod_cast hhi'
  · rw [if_neg hba]
    push_neg at hba
    have hq1 : 1 ≤ b / a := (Nat.one_le_div_iff ha).mpr (le_of_lt hba)
    obtain ⟨hlo, hhi⟩ := natLog2_spec hq1
    set j := natLog2 (b / a) with hj
    have hlo' : 2 ^ j * a ≤ b := by
      calc 2 ^ j * a ≤ b / a * a := Nat.mul_le_mul_right a hlo
        _ ≤ b := Nat.div_mul_le_self b a
    have hhi' : b < 2 ^ (j + 1) * a := (Nat.div_lt_iff_lt_mul ha).mp hhi
    have hneg : (2 : ℚ) ^ (-(j : Int)) = ((2 : ℚ) ^ j)⁻¹ := by
      rw [zpow_neg, zpow_natCast]
    have hneg1 : (2 : ℚ) ^ (-(j : Int) - 1) = ((2 : ℚ) ^ (j + 1))⁻¹ := by
      rw [show -(j : Int) - 1 = -((j + 1 : Nat) : Int) by push_cast; ring]
      rw [zpow_neg, zpow_natCast]
    by_cases hex : b = a * 2 ^ j
    · rw [if_pos hex]
      have hval : (a : ℚ) / b = ((2 : ℚ) ^ j)⁻¹ := by
        rw [hex]
        push_cast
        rw [div_mul_eq_div_div]
        rw [div_self (ne_of_gt haq), one_div]
      constructor
      · rw [hneg, hval]
      · rw [show -(j : Int) + 1 = -((j : Int) - 1) by ring]
        rw [hval]
        rw [zpow_neg]
        rw [inv_lt_inv (by positivity) (by positivity)]
        rw [show (j : Int) - 1 = (j : Int) - 1 from rfl]
        calc (2:ℚ) ^ ((j:Int) - 1) < (2:ℚ) ^ (j:Int) := by
              apply zpow_lt_zpow_right₀ (by norm_num)
              omega
          _ = (2:ℚ) ^ j := zpow_natCast 2 j
    · rw [if_neg hex]
      constructor
      · rw [hneg1, ← one_div, div_le_div_iff (by positivity) hbq, one_mul]
        have hcast : (b : ℚ) ≤ ((2 ^ (j + 1) * a : Nat) : ℚ) := by
          exact_mod_cast le_of_lt hhi'
        push_cast at hcast
        calc (b:ℚ) ≤ 2 ^ (j+1) * a := hcast
          _ = a * 2 ^ (j+1) := mul_comm _ _
      · rw [show -(j : Int) - 1 + 1 = -(j : Int) by ring]
        rw [hneg, ← one_div, div_lt_div_iff hbq (by positivity), one_mul]
        have hne : 2 ^ j * a ≠ b := by
          intro hcontra
          apply hex
          rw [← hcontra]
          exact Nat.mul_comm (2 ^ j) a
        have hstrict : 2 ^ j * a < b := lt_of_le_of_ne hlo' hne
        have hcast : ((2 ^ j * a : Nat) : ℚ) < b := by exact_mod_cast hstrict
        push_cast at hcast
        calc (a:ℚ) * 2 ^ j = 2 ^ j * a := mul_comm _ _
          _ < b := hcast


theorem roundFrac_le {a b r : Nat} {f : Int} (hb : 0 < b) (hr : r ≤ 2 ^ 53)
    (h : (a : ℚ) / b ≤ (r : ℚ) * (2 : ℚ) ^ f) :
    valF (roundFrac a b) ≤ (r : ℚ) * (2 : ℚ) ^ f := by
  have hbq : (0 : ℚ) < b := by exact_mod_cast hb
  rcases Nat.eq_zero_or_pos a with rfl | ha
  · have h0 : valF (roundFrac 0 b) = 0 := by simp [roundFrac, valF]
    rw [h0]
    positivity
  · obtain ⟨A, B, hB, heq, hval⟩ := roundFrac_cases ha hb
    have hBq : (0 : ℚ) < B := by exact_mod_cast hB
    obtain ⟨hklo, hkhi⟩ := fracLog2_spec ha hb
    set k : Int := fracLog2 a b with hk
    rw [heq]
    show (roundMant A B : ℚ) * (2:ℚ) ^ (k - 52) ≤ (r:ℚ) * 2 ^ f
    by_cases hef : k - 52 ≤ f
    · have hfe : (0:Int) ≤ f - (k - 52) := by omega
      have hNval : ((r * 2 ^ (f - (k - 52)).toNat : Nat) : ℚ)
          = (r : ℚ) * (2:ℚ) ^ (f - (k - 52)) := by
        push_cast
        rw [← zpow_natCast (2:ℚ) (f - (k - 52)).toNat, Int.toNat_of_nonneg hfe]
      have hABdiv : (A : ℚ) / B ≤ ((r * 2 ^ (f - (k - 52)).toNat : Nat) : ℚ) := by
        rw [hNval, hval]
        calc ((a:ℚ)/b) * (2:ℚ) ^ (-(k - 52))
            ≤ ((r:ℚ) * 2 ^ f) * (2:ℚ) ^ (-(k - 52)) :=
              mul_le_mul_of_nonneg_right h (by positivity)
          _ = (r:ℚ) * (2:ℚ) ^ (f - (k - 52)) := by
              rw [mul_assoc, ← zpow_add₀ (by norm_num : (2:ℚ) ≠ 0)]
              rw [show f + -(k - 52) = f - (k - 52) from by ring]
      have hABN : A ≤ r * 2 ^ (f - (k - 52)).toNat * B := by
        rw [div_le_iff₀ hBq] at hABdiv
        exact_mod_cast hABdiv
      have hRM : roundMant A B ≤ r * 2 ^ (f - (k - 52)).toNat := roundMant_le hB hABN
      calc (roundMant A B : ℚ) * (2:ℚ) ^ (k - 52)
          ≤ ((r * 2 ^ (f - (k - 52)).toNat : Nat) : ℚ) * (2:ℚ) ^ (k - 52) :=
            mul_le_mul_of_nonneg_right (by exact_mod_cast hRM) (by positivity)
        _ = (r:ℚ) * 2 ^ f := by
            rw [hNval, mul_assoc, ← zpow_add₀ (by norm_num : (2:ℚ) ≠ 0)]
            rw [show f - (k - 52) + (k - 52) = f from by ring]
    · push_neg at hef
      have hr53 : (r:ℚ) ≤ (2:ℚ) ^ (53:Int) := by
        calc (r:ℚ) ≤ ((2 ^ 53 : Nat) : ℚ) := by exact_mod_cast hr
          _ = (2:ℚ) ^ (53:Int) := by norm_num
      have hfq : (0:ℚ) < (2:ℚ) ^ f := by positivity
      have hup : (a:ℚ) / b ≤ (2:ℚ) ^ (f + 53) := by
        calc (a:ℚ)/b ≤ (r:ℚ) * 2 ^ f := h
          _ ≤ (2:ℚ) ^ (53:Int) * 2 ^ f :=
              mul_le_mul_of_nonneg_right hr53 (le_of_lt hfq)
          _ = (2:ℚ) ^ (f + 53) := by
              rw [← zpow_add₀ (by norm_num : (2:ℚ) ≠ 0)]
              rw [show (53:Int) + f = f + 53 from by ring]
      have hke : k ≤ f + 53 := by
        by_contra hgt
        push_neg at hgt
        have hlt : (2:ℚ) ^ (f + 53) < (2:ℚ) ^ k :=
          zpow_lt_zpow_right₀ (by norm_num) hgt
        have := le_trans hklo hup
        linarith [le_trans hklo hup]
      have hkeq : k = f + 53 := by omega
      have hab_eq : (a:ℚ) / b = (2:ℚ) ^ k := by
        apply le_antisymm _ hklo
        rw [hkeq]
        exact hup
      have hrge : (2:ℚ) ^ (53:Int) ≤ (r:ℚ) := by
        have h1 : (2:ℚ) ^ (53:Int) * 2 ^ f ≤ (r:ℚ) * 2 ^ f := by
          calc (2:ℚ) ^ (53:Int) * 2 ^ f = (2:ℚ) ^ (f + 53) := by
                rw [← zpow_add₀ (by norm_num : (2:ℚ) ≠ 0)]
                rw [show (53:Int) + f = f + 53 from by ring]
            _ = (2:ℚ) ^ k := by rw [hkeq]
            _ ≤ (a:ℚ) / b := hklo
            _ ≤ (r:ℚ) * 2 ^ f := h
        exact le_of_mul_le_mul_right h1 hfq
      have hABval : (A : ℚ) / B = (2:ℚ) ^ (52:Int) := by
        rw [hval, hab_eq, ← zpow_add₀ (by norm_num : (2:ℚ) ≠ 0)]
        rw [show k + -(k - 52) = (52:Int) from by ring]
      have hAeq : A = 2 ^ 52 * B := by
        have h2 : (A : ℚ) = (2:ℚ) ^ (52:Int) * B := by
          rw [← hABval, div_mul_cancel₀]
          exact ne_of_gt hBq
        have h3 : (A : ℚ) = ((2 ^ 52 * B : Nat) : ℚ) := by
          rw [h2]
          push_cast
          norm_num
        exact_mod_cast h3
      have hRM : roundMant A B = 2 ^ 52 := by
        rw [hAeq, roundMant_exact hB (dvd_mul_left B (2 ^ 52)), Nat.mul_div_cancel _ hB]
      rw [hRM]
      have hcast52 : ((2 ^ 52 : Nat) : ℚ) = (2:ℚ) ^ (52:Int) := by norm_num
      rw [hcast52]
      calc (2:ℚ) ^ (52:Int) * (2:ℚ) ^ (k - 52)
          = (2:ℚ) ^ k := by
            rw [← zpow_add₀ (by norm_num : (2:ℚ) ≠ 0)]
            rw [show (52:Int) + (k - 52) = k from by ring]
        _ = (2:ℚ) ^ (53:Int) * 2 ^ f := by
            rw [hkeq, ← zpow_add₀ (by norm_num : (2:ℚ) ≠ 0)]
            rw [show (53:Int) + f = f + 53 from by ring]
        _ ≤ (r:ℚ) * 2 ^ f := mul_le_mul_of_nonneg_right hrge (le_of_lt hfq)


theorem valF_jsMul (d : F64) (m : Nat) :
    valF (jsMul d m) = valF (roundFrac (d.mant * m) 1) * (2:ℚ) ^ d.exp := by
  simp only [jsMul, valF]
  rw [zpow_add₀ (by norm_num : (2:ℚ) ≠ 0)]
  ring

theorem floorF64_le {d : F64} {N : Nat} (h : valF d ≤ N) : floorF64 d ≤ N := by
  rw [valF] at h
  rw [floorF64]
  split_ifs with hge
  · have h2 : ((2:ℚ)) ^ d.exp = ((2 ^ d.exp.toNat : Nat) : ℚ) := by
      push_cast
      rw [← zpow_natCast (2:ℚ) d.exp.toNat, Int.toNat_of_nonneg hge]
    rw [h2] at h
    exact_mod_cast h
  · push_neg at hge
    have h2 : ((2:ℚ)) ^ d.exp = (((2 ^ (-d.exp).toNat : Nat) : ℚ))⁻¹ := by
      push_cast
      rw [← zpow_natCast (2:ℚ) (-d.exp).toNat, Int.toNat_of_nonneg (by omega), ← zpow_neg]
      norm_num
    rw [h2, ← div_eq_mul_inv] at h
    have hpow : (0:ℚ) < ((2 ^ (-d.exp).toNat : Nat) : ℚ) := by positivity
    rw [div_le_iff₀ hpow] at h
    have hN : d.mant ≤ N * 2 ^ (-d.exp).toNat := by exact_mod_cast h
    have h5 : d.mant / 2 ^ (-d.exp).toNat ≤ N * 2 ^ (-d.exp).toNat / 2 ^ (-d.exp).toNat :=
      Nat.div_le_div_right hN
    rwa [Nat.mul_div_cancel _ (by positivity)] at h5

theorem floorF64_lt {d : F64} {N : Nat} (h : valF d < N) : floorF64 d < N := by
  rw [valF] at h
  rw [floorF64]
  split_ifs with hge
  · have h2 : ((2:ℚ)) ^ d.exp = ((2 ^ d.exp.toNat : Nat) : ℚ) := by
      push_cast
      rw [← zpow_natCast (2:ℚ) d.exp.toNat, Int.toNat_of_nonneg hge]
    rw [h2] at h
    exact_mod_cast h
  · push_neg at hge
    have h2 : ((2:ℚ)) ^ d.exp = (((2 ^ (-d.exp).toNat : Nat) : ℚ))⁻¹ := by
      push_cast
      rw [← zpow_natCast (2:ℚ) (-d.exp).toNat, Int.toNat_of_nonneg (by omega), ← zpow_neg]
      norm_num
    rw [h2, ← div_eq_mul_inv] at h
    have hpow : (0:ℚ) < ((2 ^ (-d.exp).toNat : Nat) : ℚ) := by positivity
    rw [div_lt_iff₀ hpow] at h
    have hN : d.mant < N * 2 ^ (-d.exp).toNat := by exact_mod_cast h
    exact Nat.div_lt_of_lt_mul (by rwa [Nat.mul_comm] at hN)

theorem floorF64_of_val_eq {d : F64} {N : Nat} (h : valF d = N) : floorF64 d = N := by
  rw [valF] at h
  rw [floorF64]
  split_ifs with hge
  · have h2 : ((2:ℚ)) ^ d.exp = ((2 ^ d.exp.toNat : Nat) : ℚ) := by
      push_cast
      rw [← zpow_natCast (2:ℚ) d.exp.toNat, Int.toNat_of_nonneg hge]
    rw [h2] at h
    exact_mod_cast h
  · push_neg at hge
    have h2 : ((2:ℚ)) ^ d.exp = (((2 ^ (-d.exp).toNat : Nat) : ℚ))⁻¹ := by
      push_cast
      rw [← zpow_natCast (2:ℚ) (-d.exp).toNat, Int.toNat_of_nonneg (by omega), ← zpow_neg]
      norm_num
    rw [h2, ← div_eq_mul_inv] at h
    have hpow : (0:ℚ) < ((2 ^ (-d.exp).toNat : Nat) : ℚ) := by positivity
    rw [div_eq_iff (ne_of_gt hpow)] at h
    have hN : d.mant = N * 2 ^ (-d.exp).toNat := by exact_mod_cast h
    rw [hN, Nat.mul_div_cancel _ (by positivity)]

theorem valF_jsMul_le {d : F64} {m r : Nat} {f : Int} (hr : r ≤ 2 ^ 53)
    (h : valF d * m ≤ (r : ℚ) * (2:ℚ) ^ f) :
    valF (jsMul d m) ≤ (r : ℚ) * (2:ℚ) ^ f := by
  rw [valF_jsMul]
  have hprod : ((d.mant * m : Nat) : ℚ) / ((1:Nat) : ℚ) ≤ (r:ℚ) * (2:ℚ) ^ (f - d.exp) := by
    push_cast
    rw [div_one]
    have hcancel : (2:ℚ) ^ d.exp * (2:ℚ) ^ (-d.exp) = 1 := by
      rw [← zpow_add₀ (by norm_num : (2:ℚ) ≠ 0), show d.exp + -d.exp = 0 from by ring,
        zpow_zero]
    have hexp : (d.mant : ℚ) * m = valF d * m * (2:ℚ) ^ (-d.exp) := by
      rw [valF]
      calc (d.mant : ℚ) * m
          = (d.mant:ℚ) * m * ((2:ℚ) ^ d.exp * (2:ℚ) ^ (-d.exp)) := by
            rw [hcancel, mul_one]
        _ = (d.mant:ℚ) * 2 ^ d.exp * m * (2:ℚ) ^ (-d.exp) := by ring
    rw [hexp]
    calc valF d * m * (2:ℚ) ^ (-d.exp)
        ≤ (r:ℚ) * (2:ℚ) ^ f * (2:ℚ) ^ (-d.exp) :=
          mul_le_mul_of_nonneg_right h (by positivity)
      _ = (r:ℚ) * (2:ℚ) ^ (f - d.exp) := by
          rw [mul_assoc, ← zpow_add₀ (by norm_num : (2:ℚ) ≠ 0),
            show f + -d.exp = f - d.exp from by ring]
  have hkey : valF (roundFrac (d.mant * m) 1) ≤ (r:ℚ) * (2:ℚ) ^ (f - d.exp) :=
    roundFrac_le Nat.one_pos hr hprod
  calc valF (roundFrac (d.mant * m) 1) * (2:ℚ) ^ d.exp
      ≤ (r:ℚ) * (2:ℚ) ^ (f - d.exp) * (2:ℚ) ^ d.exp :=
        mul_le_mul_of_nonneg_right hkey (by positivity)
    _ = (r:ℚ) * (2:ℚ) ^ f := by
        rw [mul_assoc, ← zpow_add₀ (by norm_num : (2:ℚ) ≠ 0),
          show f - d.exp + d.exp = f from by ring]


theorem jsDiv_le_one {p t : Nat} (hpt : p ≤ t) (ht : 0 < t) :
    valF (roundFrac p t) ≤ 1 := by
  have htq : (0:ℚ) < t := by exact_mod_cast ht
  have h : (p : ℚ) / t ≤ ((1:Nat) : ℚ) * (2:ℚ) ^ (0:Int) := by
    rw [Nat.cast_one, one_mul, zpow_zero]
    rw [div_le_one htq]
    exact_mod_cast hpt
  have := roundFrac_le ht (by norm_num) h
  simpa using this

theorem jsScore_le {p t m : Nat} (hpt : p ≤ t) (ht : 0 < t) (hm : m ≤ 2 ^ 53) :
    jsScore p t m ≤ m := by
  have hd1 : valF (roundFrac p t) ≤ 1 := jsDiv_le_one hpt ht
  have hmul : valF (jsMul (roundFrac p t) m) ≤ (m:ℚ) * (2:ℚ) ^ (0:Int) := by
    apply valF_jsMul_le hm
    rw [zpow_zero, mul_one]
    calc valF (roundFrac p t) * m ≤ 1 * m :=
          mul_le_mul_of_nonneg_right hd1 (by positivity)
      _ = m := one_mul _
  rw [zpow_zero, mul_one] at hmul
  exact floorF64_le hmul

theorem roundFrac_self {t : Nat} (ht : 0 < t) : roundFrac t t = ⟨2 ^ 52, -52⟩ := by
  rw [roundFrac, if_neg (Nat.pos_iff_ne_zero.mp ht)]
  have hfl : fracLog2 t t = 0 := by
    rw [fracLog2, if_pos le_rfl, Nat.div_self ht]
    rfl
  rw [hfl]
  norm_num
  rw [show (Int.toNat 52) = 52 from rfl]
  rw [roundMant_exact ht (dvd_mul_right t (2 ^ 52)), Nat.mul_div_cancel_left _ ht]
  norm_num

theorem roundFrac_pow52_mul {m : Nat} (hm1 : 1 ≤ m) (hm : m ≤ 2 ^ 53) :
    valF (roundFrac (2 ^ 52 * m) 1) = ((2 ^ 52 * m : Nat) : ℚ) := by
  obtain ⟨hjlo, hjhi⟩ := natLog2_spec hm1
  set j := natLog2 m with hjdef
  have hk : natLog2 (2 ^ 52 * m) = 52 + j := by
    apply natLog2_unique
    · rw [pow_add]
      exact Nat.mul_le_mul_left _ hjlo
    · rw [show 52 + j + 1 = 52 + (j + 1) from by omega, pow_add]
      exact mul_lt_mul_of_pos_left hjhi (by positivity)
  have h53 : (2:Nat) ^ 53 = 9007199254740992 := by norm_num
  have hj53 : j ≤ 53 := by
    by_contra hgt
    push_neg at hgt
    have hle : 2 ^ 54 ≤ 2 ^ j := Nat.pow_le_pow_right (by norm_num) hgt
    have h54 : (2:Nat) ^ 54 = 18014398509481984 := by norm_num
    omega
  have hdvd : 2 ^ j ∣ 2 ^ 52 * m := by
    rcases Nat.lt_or_ge j 53 with hlt | hge
    · exact Dvd.dvd.mul_right (pow_dvd_pow 2 (by omega)) m
    · have hj53' : j = 53 := by omega
      have hm' : m = 2 ^ 53 := by
        rw [hj53'] at hjlo
        omega
      rw [hm', hj53']
      exact dvd_mul_left (2 ^ 53) (2 ^ 52)
  have hpos : 0 < 2 ^ 52 * m := by positivity
  have hfr : fracLog2 (2 ^ 52 * m) 1 = ((52 + j : Nat) : Int) := by
    rw [fracLog2, if_pos (Nat.one_le_iff_ne_zero.mpr (Nat.pos_iff_ne_zero.mp hpos))]
    rw [Nat.div_one, hk]
  obtain ⟨A, B, hB, heq, hval⟩ := roundFrac_cases hpos Nat.one_pos
  have hBq : (0:ℚ) < B := by exact_mod_cast hB
  have he : fracLog2 (2 ^ 52 * m) 1 - 52 = (j : Int) := by
    rw [hfr]
    push_cast
    ring
  rw [he] at heq hval
  rw [heq, valF]
  set N : Nat := (2 ^ 52 * m) / 2 ^ j with hN
  have hNn : N * 2 ^ j = 2 ^ 52 * m := Nat.div_mul_cancel hdvd
  have hABN : (A:ℚ) = (N:ℚ) * B := by
    have h2 : ((2 ^ 52 * m : Nat) : ℚ) = (N:ℚ) * (2:ℚ) ^ (j:Int) := by
      rw [zpow_natCast]
      exact_mod_cast hNn.symm
    have h1 : ((2 ^ 52 * m : Nat) : ℚ) * (2:ℚ) ^ (-(j:Int)) = (N:ℚ) := by
      rw [h2, mul_assoc, ← zpow_add₀ (by norm_num : (2:ℚ) ≠ 0),
        show (j:Int) + -(j:Int) = 0 from by ring, zpow_zero, mul_one]
    have h3 : (A:ℚ) / B = (N:ℚ) := by
      rw [hval]
      push_cast at h1 ⊢
      rw [div_one]
      exact h1
    rwa [div_eq_iff (ne_of_gt hBq)] at h3
  have hABnat : A = N * B := by exact_mod_cast hABN
  have hRM : roundMant A B = N := by
    rw [hABnat, roundMant_exact hB (dvd_mul_left B N), Nat.mul_div_cancel _ hB]
  show (roundMant A B : ℚ) * (2:ℚ) ^ (j:Int) = ((2 ^ 52 * m : Nat) : ℚ)
  rw [hRM, zpow_natCast]
  exact_mod_cast hNn

theorem jsScore_self {t m : Nat} (ht : 0 < t) (hm : m ≤ 2 ^ 53) :
    jsScore t t m = m := by
  rcases Nat.eq_zero_or_pos m with rfl | hm1
  · rw [jsScore, roundFrac_self ht]
    rfl
  · rw [jsScore, roundFrac_self ht]
    apply floorF64_of_val_eq
    rw [valF_jsMul]
    show valF (roundFrac (2 ^ 52 * m) 1) * (2:ℚ) ^ (-52 : Int) = m
    rw [roundFrac_pow52_mul hm1 hm]
    have hsplit : ((2 ^ 52 * m : Nat) : ℚ) = (2:ℚ) ^ (52:Int) * m := by
      push_cast
      norm_num
    rw [hsplit, mul_assoc, mul_comm ((m:ℚ)) ((2:ℚ) ^ (-52:Int)), ← mul_assoc,
      ← zpow_add₀ (by norm_num : (2:ℚ) ≠ 0)]
    norm_num


theorem jsScore_lt {p t m : Nat} (hpt : p < t) (ht32 : t ≤ 2 ^ 32)
    (hm1 : 1 ≤ m) (hm : m ≤ 2 ^ 53) : jsScore p t m < m := by
  have ht : 0 < t := by omega
  have htq : (0:ℚ) < t := by exact_mod_cast ht
  have h2ne : (2:ℚ) ≠ 0 := by norm_num
  have hrhs : ((2 ^ 53 - 2 ^ 21 : Nat) : ℚ) * (2:ℚ) ^ (-53 : Int)
      = 1 - (2:ℚ) ^ (-32:Int) := by
    rw [Nat.cast_sub (by norm_num : (2:Nat) ^ 21 ≤ 2 ^ 53)]
    push_cast
    norm_num
  have hd0 : valF (roundFrac p t)
      ≤ ((2 ^ 53 - 2 ^ 21 : Nat) : ℚ) * (2:ℚ) ^ (-53 : Int) := by
    apply roundFrac_le ht (Nat.sub_le _ _)
    rw [hrhs]
    have h1 : (p:ℚ) / t ≤ 1 - 1 / t := by
      rw [div_le_iff₀ htq, sub_mul, one_mul, one_div, inv_mul_cancel₀ (ne_of_gt htq)]
      have hple : (p:ℚ) ≤ (t:ℚ) - 1 := by
        have : ((p + 1 : Nat) : ℚ) ≤ (t:ℚ) := by exact_mod_cast hpt
        push_cast at this
        linarith
      exact hple
    have h2 : (2:ℚ) ^ (-32:Int) ≤ 1 / t := by
      have h2a : (2:ℚ) ^ (-32:Int) = 1 / 4294967296 := by norm_num
      rw [h2a]
      apply one_div_le_one_div_of_le htq
      have ht32b : t ≤ 4294967296 := by
        have hl : (2:Nat) ^ 32 = 4294967296 := by norm_num
        omega
      exact_mod_cast ht32b
    linarith
  rw [hrhs] at hd0
  rw [jsScore]
  rcases eq_or_lt_of_le hm with hmeq | hmlt
  · subst hmeq
    have hprod : valF (jsMul (roundFrac p t) (2 ^ 53))
        ≤ ((2 ^ 53 - 2 ^ 21 : Nat) : ℚ) * (2:ℚ) ^ (0:Int) := by
      apply valF_jsMul_le (Nat.sub_le _ _)
      rw [zpow_zero, mul_one]
      calc valF (roundFrac p t) * ((2 ^ 53 : Nat) : ℚ)
          ≤ (1 - (2:ℚ) ^ (-32:Int)) * ((2 ^ 53 : Nat) : ℚ) :=
            mul_le_mul_of_nonneg_right hd0 (by positivity)
        _ = ((2 ^ 53 - 2 ^ 21 : Nat) : ℚ) := by
            rw [Nat.cast_sub (by norm_num : (2:Nat) ^ 21 ≤ 2 ^ 53)]
            push_cast
            norm_num
    have hlt : valF (jsMul (roundFrac p t) (2 ^ 53)) < ((2 ^ 53 : Nat) : ℚ) := by
      rw [zpow_zero, mul_one] at hprod
      calc valF (jsMul (roundFrac p t) (2 ^ 53))
          ≤ ((2 ^ 53 - 2 ^ 21 : Nat) : ℚ) := hprod
        _ < ((2 ^ 53 : Nat) : ℚ) := by
            have : (2:Nat) ^ 53 - 2 ^ 21 < 2 ^ 53 := by norm_num
            exact_mod_cast this
    exact floorF64_lt hlt
  · obtain ⟨hjlo, hjhi⟩ := natLog2_spec hm1
    set j := natLog2 m with hjdef
    have hj52 : j ≤ 52 := by
      by_contra hgt
      push_neg at hgt
      have hle : 2 ^ 53 ≤ 2 ^ j := Nat.pow_le_pow_right (by norm_num) hgt
      have h53 : (2:Nat) ^ 53 = 9007199254740992 := by norm_num
      omega
    have h52eq : 2 ^ j * 2 ^ (52 - j) = 2 ^ 52 := by
      rw [← pow_add]
      congr 1
      omega
    have h52le : 2 ^ 52 ≤ m * 2 ^ (52 - j) := by
      calc (2:Nat) ^ 52 = 2 ^ j * 2 ^ (52 - j) := h52eq.symm
        _ ≤ m * 2 ^ (52 - j) := Nat.mul_le_mul_right _ hjlo
    have h20le : 2 ^ 20 ≤ m * 2 ^ (52 - j) := by
      have : (2:Nat) ^ 20 ≤ 2 ^ 52 := by norm_num
      omega
    have hr : m * 2 ^ (52 - j) - 2 ^ 20 ≤ 2 ^ 53 := by
      have hmle : m ≤ 2 ^ (j + 1) - 1 := by omega
      have hmul : m * 2 ^ (52 - j) ≤ (2 ^ (j + 1) - 1) * 2 ^ (52 - j) :=
        Nat.mul_le_mul_right _ hmle
      have heq2 : (2 ^ (j + 1) - 1) * 2 ^ (52 - j) = 2 ^ 53 - 2 ^ (52 - j) := by
        have hexp : j + 1 + (52 - j) = 53 := by omega
        rw [Nat.sub_mul, one_mul, ← pow_add, hexp]
      have hple : (0:Nat) < 2 ^ (52 - j) := by positivity
      omega
    have hc1 : ((2 ^ (52 - j) : Nat) : ℚ) = (2:ℚ) ^ ((52:Int) - j) := by
      have h1 : ((52:Int) - j) = ((52 - j : Nat) : Int) := by omega
      rw [h1, zpow_natCast]
      push_cast
      ring
    have hrq : ((m * 2 ^ (52 - j) - 2 ^ 20 : Nat) : ℚ)
        = (m:ℚ) * (2:ℚ) ^ ((52:Int) - j) - (2:ℚ) ^ (20:Int) := by
      rw [Nat.cast_sub h20le, Nat.cast_mul, hc1]
      norm_num
    have hcast : ((m * 2 ^ (52 - j) - 2 ^ 20 : Nat) : ℚ) * (2:ℚ) ^ ((j:Int) - 52)
        = (m:ℚ) - (2:ℚ) ^ ((j:Int) - 32) := by
      rw [hrq, sub_mul, mul_assoc, ← zpow_add₀ h2ne, ← zpow_add₀ h2ne]
      rw [show (52:Int) - j + ((j:Int) - 52) = 0 from by ring, zpow_zero, mul_one]
      rw [show (20:Int) + ((j:Int) - 52) = (j:Int) - 32 from by ring]
    have hlhs : valF (roundFrac p t) * m ≤ (m:ℚ) - (2:ℚ) ^ ((j:Int) - 32) := by
      have hb1 : valF (roundFrac p t) * m ≤ (1 - (2:ℚ) ^ (-32:Int)) * m :=
        mul_le_mul_of_nonneg_right hd0 (by positivity)
      have hsplit : (2:ℚ) ^ ((j:Int) - 32) = (2:ℚ) ^ (j:Int) * (2:ℚ) ^ (-32:Int) := by
        rw [← zpow_add₀ h2ne, sub_eq_add_neg]
      have hjm : (2:ℚ) ^ (j:Int) ≤ (m:ℚ) := by
        rw [zpow_natCast]
        exact_mod_cast hjlo
      have h5 : (2:ℚ) ^ (j:Int) * (2:ℚ) ^ (-32:Int) ≤ (2:ℚ) ^ (-32:Int) * m := by
        rw [mul_comm ((2:ℚ) ^ (-32:Int)) (m:ℚ)]
        exact mul_le_mul_of_nonneg_right hjm (by positivity)
      calc valF (roundFrac p t) * m ≤ (1 - (2:ℚ) ^ (-32:Int)) * m := hb1
        _ = (m:ℚ) - (2:ℚ) ^ (-32:Int) * m := by ring
        _ ≤ (m:ℚ) - (2:ℚ) ^ (j:Int) * (2:ℚ) ^ (-32:Int) := sub_le_sub_left h5 _
        _ = (m:ℚ) - (2:ℚ) ^ ((j:Int) - 32) := by rw [hsplit]
    have hprod : valF (jsMul (roundFrac p t) m)
        ≤ ((m * 2 ^ (52 - j) - 2 ^ 20 : Nat) : ℚ) * (2:ℚ) ^ ((j:Int) - 52) :=
      valF_jsMul_le hr (by rw [hcast]; exact hlhs)
    have hlt : valF (jsMul (roundFrac p t) m) < (m:ℚ) := by
      calc valF (jsMul (roundFrac p t) m)
          ≤ ((m * 2 ^ (52 - j) - 2 ^ 20 : Nat) : ℚ) * (2:ℚ) ^ ((j:Int) - 52) := hprod
        _ = (m:ℚ) - (2:ℚ) ^ ((j:Int) - 32) := hcast
        _ < (m:ℚ) := by
            have hpos2 : (0:ℚ) < (2:ℚ) ^ ((j:Int) - 32) := by positivity
            linarith
    exact floorF64_lt hlt

/-! ## Claim theorems -/

/-- Claim C2. For each admission-controller semaphore, starting from
`current = 0` and an empty queue, under any sequence of `acquire()` and
paired `release()` calls the in-flight count `current` never exceeds the
configured maximum `max` (and never goes negative), slots are granted in
strict arrival order, and whenever callers are waiting, `release()` hands
the freed slot to the queue head, which is the longest-waiting
(minimal-arrival-number) waiter. -/
theorem semaphore_bound_and_fifo (max : Nat) (events : List SemEvent)
    (hv : validTrace (SemState.init max) events = true) :
    0 ≤ (runSem (SemState.init max) events).current ∧
    (runSem (SemState.init max) events).current ≤ (max : Int) ∧
    (runSem (SemState.init max) events).granted.Pairwise (· < ·) ∧
    (∀ a as, (runSem (SemState.init max) events).queue = a :: as →
      (semRelease (runSem (SemState.init max) events)).granted =
        (runSem (SemState.init max) events).granted ++ [a] ∧
      ∀ q ∈ (runSem (SemState.init max) events).queue, a ≤ q) := by
  have inv := semInv_run (semInv_init max) events hv
  have hmax : (runSem (SemState.init max) events).max = max :=
    runSem_max (SemState.init max) events
  have hle : (runSem (SemState.init max) events).current ≤ (max : Int) := by
    have h := inv.current_le
    rw [hmax] at h
    exact h
  refine ⟨inv.current_nonneg, hle, inv.granted_sorted, ?_⟩
  intro a as hq
  constructor
  · simp [semRelease, hq]
  · intro q hqm
    rw [hq] at hqm
    rcases List.mem_cons.mp hqm with rfl | hmem
    · exact le_refl q
    · have hs := inv.queue_sorted
      rw [hq] at hs
      exact le_of_lt ((List.pairwise_cons.mp hs).1 q hmem)

/-- Witness for C2: `max = 1`, two acquirers, one release; the second
acquirer waits, so `current` stays at the ceiling. -/
theorem semaphore_bound_and_fifo_witness :
    (runSem (SemState.init 1)
        [SemEvent.acquire, SemEvent.acquire, SemEvent.release]).current ≤ (1 : Int) :=
  (semaphore_bound_and_fifo 1 [SemEvent.acquire, SemEvent.acquire, SemEvent.release]
    (by decide)).2.1

/-- Claim C9, counterexample. The interactive compile controller's ceiling
is 20 and the judging controller's is 10, so the compile ceiling is not
strictly smaller than the judging ceiling — it is larger. -/
theorem semaphore_ceilings_counterexample :
    compilationSemaphoreMax = 20 ∧ submissionSemaphoreMax = 10 ∧
    decide (compilationSemaphoreMax < submissionSemaphoreMax) = false :=
  ⟨rfl, rfl, by decide⟩

/-- Claim C9, amended. The two admission controllers have distinct fixed
concurrency ceilings, and it is the background judging controller whose
ceiling (10) is strictly smaller than the interactive compile
controller's (20). -/
theorem semaphore_ceilings_amended :
    (compilationSemaphoreMax == submissionSemaphoreMax) = false ∧
    submissionSemaphoreMax < compilationSemaphoreMax :=
  ⟨by decide, by decide⟩

/-- Claim C8. For every claimed submission, whichever step throws
(evaluation, result aggregation, or persistence), the outermost handler
forces the final status to `runtime_error`, the status is never left at
`running`, and the judging semaphore slot is released on every exit
path. -/
theorem judging_failsafe (results : List RunResult) (testCases : List TestCase)
    (maxScore : Nat) :
    (∀ fail, (processSubmissionAsync fail results testCases maxScore).semaphoreReleased
        = true) ∧
    (processSubmissionAsync FailPoint.duringEvaluate results testCases
        maxScore).finalStatus = "runtime_error" ∧
    (processSubmissionAsync FailPoint.duringAggregate results testCases
        maxScore).finalStatus = "runtime_error" ∧
    (processSubmissionAsync FailPoint.duringPersist results testCases
        maxScore).finalStatus = "runtime_error" ∧
    (∀ fail, ((processSubmissionAsync fail results testCases maxScore).finalStatus
        == "running") = false) := by
  refine ⟨?_, rfl, rfl, rfl, ?_⟩
  · intro fail
    cases fail <;> rfl
  · intro fail
    cases fail with
    | noFailure =>
        have hmem := finalStatus_mem_terminal results testCases maxScore
        show ((aggregateResults results testCases maxScore).finalStatus == "running")
          = false
        simp only [List.mem_cons, List.mem_singleton, List.not_mem_nil, or_false] at hmem
        rcases hmem with h | h | h | h | h | h <;> (rw [h]; rfl)
    | duringEvaluate => rfl
    | duringAggregate => rfl
    | duringPersist => rfl

/-- Claim C5, counterexample.  Two refutations at schema-legal inputs.
First, the score is computed in IEEE-754 binary64, not exact arithmetic:
with 29 of 50 test cases passed and `maxScore = 100`, the code persists
`Math.floor(0.58 * 100) = 57` (0.58 rounds to a double just below 0.58)
while the claimed exact `floor(29 / 50 * 100)` is 58.  Second, the
contest schema allows a problem configured with `points: 0` (`min: 0`);
with `maxScore = 0` and one failing test case the score equals `maxScore`
(both are 0) although not every case passed, refuting "score = maxScore
exactly when every case passed". -/
theorem score_float_counterexample :
    (aggregateResults
        (List.replicate 29 ({ status := "passed" } : RunResult) ++
          List.replicate 21 ({ status := "failed" } : RunResult))
        (List.replicate 50 ({ input := "", output := "" } : TestCase)) 100).score
        = 57 ∧
    (aggregateResults
        (List.replicate 29 ({ status := "passed" } : RunResult) ++
          List.replicate 21 ({ status := "failed" } : RunResult))
        (List.replicate 50 ({ input := "", output := "" } : TestCase)) 100).passedCount
        = 29 ∧
    29 * 100 / 50 = 58 ∧
    (aggregateResults [{ status := "failed" }] [{ input := "", output := "" }] 0).score
        = 0 ∧
    (aggregateResults [{ status := "failed" }]
        [{ input := "", output := "" }] 0).passedCount = 0 ∧
    (aggregateResults [{ status := "failed" }]
        [{ input := "", output := "" }] 0).finalStatus = "wrong_answer" :=
  ⟨rfl, rfl, rfl, rfl, rfl, rfl⟩

/-- Claim C5, amended.  For every evaluated submission with `total > 0`
test cases (and any schema-legal `maxScore ≤ 2 ^ 53`), the persisted
score is `Math.floor((passed / total) * maxScore)` as IEEE-754 binary64
evaluates it (`jsScore`), which the counterexample shows can differ from
the exact `floor(passed * maxScore / total)`; still `0 ≤ score ≤ maxScore`
always, and `score = maxScore` whenever every case passed.  Conversely,
provided `maxScore > 0`, `score = maxScore` only when every case passed,
for any `total` up to the JavaScript array-length bound `2 ^ 32` (for a
zero-point contest problem the score is 0 = maxScore regardless). -/
theorem score_formula_amended (results : List RunResult) (testCases : List TestCase)
    (maxScore : Nat) (hl : results.length = testCases.length)
    (hpos : 0 < testCases.length) (hms : maxScore ≤ 2 ^ 53) :
    (aggregateResults results testCases maxScore).score
        = jsScore (results.countP (fun r => r.status == "passed"))
            testCases.length maxScore ∧
    (aggregateResults results testCases maxScore).score ≤ maxScore ∧
    ((∀ r ∈ results, r.status = "passed") →
      (aggregateResults results testCases maxScore).score = maxScore) ∧
    (0 < maxScore → testCases.length ≤ 2 ^ 32 →
      ((aggregateResults results testCases maxScore).score = maxScore ↔
        ∀ r ∈ results, r.status = "passed")) := by
  have hple : results.countP (fun r => r.status == "passed") ≤ testCases.length := by
    calc results.countP (fun r => r.status == "passed") ≤ results.length :=
          List.countP_le_length _
      _ = testCases.length := hl
  have hscore : (aggregateResults results testCases maxScore).score
      = jsScore (results.countP (fun r => r.status == "passed"))
          testCases.length maxScore := rfl
  have hall_imp : (∀ r ∈ results, r.status = "passed") →
      (aggregateResults results testCases maxScore).score = maxScore := by
    intro hall
    have hcount : results.countP (fun r => r.status == "passed") = results.length :=
      List.countP_eq_length.mpr (fun r hr => by simp [hall r hr])
    rw [hscore, hcount, hl]
    exact jsScore_self hpos hms
  refine ⟨hscore, ?_, hall_imp, ?_⟩
  · rw [hscore]
    exact jsScore_le hple hpos hms
  · intro hm0 ht32
    constructor
    · intro hsc
      by_contra hnot
      push_neg at hnot
      obtain ⟨r0, hr0, hr0ne⟩ := hnot
      have hlt : results.countP (fun r => r.status == "passed") < results.length := by
        rcases Nat.lt_or_ge (results.countP (fun r => r.status == "passed"))
            results.length with h | h
        · exact h
        · exfalso
          have heqc : results.countP (fun r => r.status == "passed") = results.length :=
            le_antisymm (List.countP_le_length _) h
          have hstat := List.countP_eq_length.mp heqc r0 hr0
          simp at hstat
          exact hr0ne hstat
      rw [hscore] at hsc
      have hjs : jsScore (results.countP (fun r => r.status == "passed"))
          testCases.length maxScore < maxScore :=
        jsScore_lt (by omega) ht32 hm0 hms
      omega
    · exact hall_imp

/-- Helper for C4: whenever `runTestCases` completes with a results
array, that array has one entry per test case, and on compile failure
every entry is a compilation error. -/
theorem result_cardinality_completed (language code : String)
    (testCases : List TestCase) (isWin : Bool) (compileOut : CompileOutcome)
    (runOut : Nat → ExecOutcome) (randMem execTime : Nat → Nat)
    (inputUnlinkOk : Nat → Bool) (out : RunOut) (rs : List RunResult)
    (h : runTestCases language code testCases isWin compileOut runOut randMem
        execTime inputUnlinkOk = Except.ok out)
    (hrs : out.outcome = Except.ok rs) :
    rs.length = testCases.length ∧
    (∀ setup stderr message, langSetup language code = some setup →
      setup.needsCompilation = true → compileOut = CompileOutcome.err stderr message →
      rs.all (fun r => r.status == "error" && r.errorType == "compilation")
        = true) := by
  obtain ⟨setup, hset, hws, hcases⟩ := runTestCases_ok_inv h
  constructor
  · rcases hcases with ⟨st, me, hnc, hco, hres, hfs⟩ | ⟨hres, hrest⟩
    · rw [hres] at hrs
      obtain rfl := Except.ok.inj hrs.symm
      rw [List.length_map]
    · rw [hres] at hrs
      exact runLoop_ok_length hrs
  · intro setup' st me hset' hnc' hco
    rw [hset'] at hset
    obtain rfl : setup' = setup := by injection hset
    rcases hcases with ⟨st2, me2, hnc, hco2, hres, hfs⟩ | ⟨hres, hrest⟩
    · rw [hco] at hco2
      injection hco2 with h1 h2
      subst h1
      subst h2
      rw [hres] at hrs
      obtain rfl := Except.ok.inj hrs.symm
      simp [List.all_eq_true, compileFailResult]
    · rcases hrest with ⟨hnc2, ⟨so, se, hok⟩, hfs⟩ | ⟨hnc2, hfs⟩
      · rw [hco] at hok
        exact absurd hok (by simp)
      · rw [hnc'] at hnc2
        exact absurd hnc2 (by simp)

/-- Claim C4, code bug.  The claim (and spec §8, "for all submissions,
len(testCaseResults) == totalTestCases") is the evident intent: the run
loop pushes one result per test case, including `error`/`timeout`
entries, and the compile-failure path maps one compilation-error result
per case (`result_cardinality_completed`).  But the per-case `catch`
block's first line reads `startTime`, declared `const` inside the `try`
block and out of scope in the catch, so any exec error (runtime failure
or timeout) raises `ReferenceError` instead of pushing a result:
evaluation aborts with no results array, and the submission keeps its
empty `testCaseResults` (length 0 ≠ totalTestCases) with status
`runtime_error` set by the outer handler.  This theorem evaluates the
code at such a failing input: two test cases, the first succeeding and
the second timing out. -/
theorem result_cardinality_bug :
    runTestCases "python" "print(input())" [TestCase.mk "" "1", TestCase.mk "" ""]
        false (CompileOutcome.ok "" "")
        (fun i => if i = 0 then ExecOutcome.ok "1\n" ""
                  else ExecOutcome.err true (some "SIGTERM") "" "" "killed")
        (fun _ => 0) (fun _ => 0) (fun _ => true)
      = Except.ok (RunOut.mk (Except.error referenceErrorMsg) [] "print(input())") ∧
    (processSubmissionAsync FailPoint.duringEvaluate []
        [TestCase.mk "" "1", TestCase.mk "" ""] 100).finalStatus = "runtime_error" :=
  ⟨rfl, rfl⟩

/-- Claim C3. The terminal status is computed by fixed priority over the
per-case results: any compilation error gives `compilation_error`
regardless of other cases; otherwise any runtime error gives
`runtime_error`; otherwise any timeout gives `time_limit_exceeded`;
otherwise any memory error gives `memory_limit_exceeded`; `accepted`
exactly when every case passed; otherwise `wrong_answer`. -/
theorem submission_status_priority (results : List RunResult) (testCases : List TestCase)
    (maxScore : Nat) (hl : results.length = testCases.length) :
    ((∃ r ∈ results, r.status = "error" ∧ r.errorType = "compilation") →
        (aggregateResults results testCases maxScore).finalStatus
          = "compilation_error") ∧
    ((∀ r ∈ results, ¬(r.status = "error" ∧ r.errorType = "compilation")) →
      (∃ r ∈ results, r.status = "error" ∧ r.errorType = "runtime") →
        (aggregateResults results testCases maxScore).finalStatus = "runtime_error") ∧
    ((∀ r ∈ results, ¬(r.status = "error" ∧ r.errorType = "compilation")) →
      (∀ r ∈ results, ¬(r.status = "error" ∧ r.errorType = "runtime")) →
      (∃ r ∈ results, r.status = "timeout") →
        (aggregateResults results testCases maxScore).finalStatus
          = "time_limit_exceeded") ∧
    ((∀ r ∈ results, ¬(r.status = "error" ∧ r.errorType = "compilation")) →
      (∀ r ∈ results, ¬(r.status = "error" ∧ r.errorType = "runtime")) →
      (∀ r ∈ results, ¬(r.status = "timeout")) →
      (∃ r ∈ results, r.status = "memory_exceeded") →
        (aggregateResults results testCases maxScore).finalStatus
          = "memory_limit_exceeded") ∧
    (((aggregateResults results testCases maxScore).finalStatus = "accepted") ↔
        ∀ r ∈ results, r.status = "passed") ∧
    ((∀ r ∈ results, ¬(r.status = "error" ∧ r.errorType = "compilation")) →
      (∀ r ∈ results, ¬(r.status = "error" ∧ r.errorType = "runtime")) →
      (∀ r ∈ results, ¬(r.status = "timeout")) →
      (∀ r ∈ results, ¬(r.status = "memory_exceeded")) →
      ¬(∀ r ∈ results, r.status = "passed") →
        (aggregateResults results testCases maxScore).finalStatus = "wrong_answer") := by
  refine ⟨?_, ?_, ?_, ?_, ?_, ?_⟩
  · rintro ⟨r, hr, h1, h2⟩
    have hC : results.any (fun r => r.status == "error" && r.errorType == "compilation")
        = true := List.any_eq_true.mpr ⟨r, hr, by simp [h1, h2]⟩
    simp [aggregateResults, hC]
  · intro hno hex
    have hC : results.any (fun r => r.status == "error" && r.errorType == "compilation")
        = false := by
      rw [Bool.eq_false_iff]
      rw [Ne, List.any_eq_true]
      rintro ⟨r, hr, hp⟩
      simp only [Bool.and_eq_true, beq_iff_eq] at hp
      exact hno r hr hp
    obtain ⟨r, hr, h1, h2⟩ := hex
    have hR : results.any (fun r => r.status == "error" && r.errorType == "runtime")
        = true := List.any_eq_true.mpr ⟨r, hr, by simp [h1, h2]⟩
    simp [aggregateResults, hC, hR]
  · intro hnoC hnoR hex
    have hC : results.any (fun r => r.status == "error" && r.errorType == "compilation")
        = false := by
      rw [Bool.eq_false_iff, Ne, List.any_eq_true]
      rintro ⟨r, hr, hp⟩
      simp only [Bool.and_eq_true, beq_iff_eq] at hp
      exact hnoC r hr hp
    have hR : results.any (fun r => r.status == "error" && r.errorType == "runtime")
        = false := by
      rw [Bool.eq_false_iff, Ne, List.any_eq_true]
      rintro ⟨r, hr, hp⟩
      simp only [Bool.and_eq_true, beq_iff_eq] at hp
      exact hnoR r hr hp
    obtain ⟨r, hr, h1⟩ := hex
    have hT : results.any (fun r => r.status == "timeout") = true :=
      List.any_eq_true.mpr ⟨r, hr, by simp [h1]⟩
    simp [aggregateResults, hC, hR, hT]
  · intro hnoC hnoR hnoT hex
    have hC : results.any (fun r => r.status == "error" && r.errorType == "compilation")
        = false := by
      rw [Bool.eq_false_iff, Ne, List.any_eq_true]
      rintro ⟨r, hr, hp⟩
      simp only [Bool.and_eq_true, beq_iff_eq] at hp
      exact hnoC r hr hp
    have hR : results.any (fun r => r.status == "error" && r.errorType == "runtime")
        = false := by
      rw [Bool.eq_false_iff, Ne, List.any_eq_true]
      rintro ⟨r, hr, hp⟩
      simp only [Bool.and_eq_true, beq_iff_eq] at hp
      exact hnoR r hr hp
    have hT : results.any (fun r => r.status == "timeout") = false := by
      rw [Bool.eq_false_iff, Ne, List.any_eq_true]
      rintro ⟨r, hr, hp⟩
      simp only [beq_iff_eq] at hp
      exact hnoT r hr hp
    obtain ⟨r, hr, h1⟩ := hex
    have hM : results.any (fun r => r.status == "memory_exceeded") = true :=
      List.any_eq_true.mpr ⟨r, hr, by simp [h1]⟩
    simp [aggregateResults, hC, hR, hT, hM]
  · constructor
    · intro hacc
      by_contra hnot
      revert hacc
      simp only [aggregateResults]
      split_ifs with h1 h2 h3 h4 h5 <;> intro hacc
      · exact absurd hacc (by decide)
      · exact absurd hacc (by decide)
      · exact absurd hacc (by decide)
      · exact absurd hacc (by decide)
      · apply hnot
        intro r hr
        have hcount : results.countP (fun r => r.status == "passed") = results.length := by
          omega
        have := List.countP_eq_length.mp hcount r hr
        simpa using this
      · exact absurd hacc (by decide)
    · intro hall
      have hC : results.any (fun r => r.status == "error" && r.errorType == "compilation")
          = false := by
        rw [Bool.eq_false_iff, Ne, List.any_eq_true]
        rintro ⟨r, hr, hp⟩
        simp [hall r hr] at hp
      have hR : results.any (fun r => r.status == "error" && r.errorType == "runtime")
          = false := by
        rw [Bool.eq_false_iff, Ne, List.any_eq_true]
        rintro ⟨r, hr, hp⟩
        simp [hall r hr] at hp
      have hT : results.any (fun r => r.status == "timeout") = false := by
        rw [Bool.eq_false_iff, Ne, List.any_eq_true]
        rintro ⟨r, hr, hp⟩
        simp [hall r hr] at hp
      have hM : results.any (fun r => r.status == "memory_exceeded") = false := by
        rw [Bool.eq_false_iff, Ne, List.any_eq_true]
        rintro ⟨r, hr, hp⟩
        simp [hall r hr] at hp
      have hcount : results.countP (fun r => r.status == "passed") = testCases.length := by
        rw [← hl]
        exact List.countP_eq_length.mpr (fun r hr => by simp [hall r hr])
      simp [aggregateResults, hC, hR, hT, hM, hcount]
  · intro hnoC hnoR hnoT hnoM hnotall
    have hC : results.any (fun r => r.status == "error" && r.errorType == "compilation")
        = false := by
      rw [Bool.eq_false_iff, Ne, List.any_eq_true]
      rintro ⟨r, hr, hp⟩
      simp only [Bool.and_eq_true, beq_iff_eq] at hp
      exact hnoC r hr hp
    have hR : results.any (fun r => r.status == "error" && r.errorType == "runtime")
        = false := by
      rw [Bool.eq_false_iff, Ne, List.any_eq_true]
      rintro ⟨r, hr, hp⟩
      simp only [Bool.and_eq_true, beq_iff_eq] at hp
      exact hnoR r hr hp
    have hT : results.any (fun r => r.status == "timeout") = false := by
      rw [Bool.eq_false_iff, Ne, List.any_eq_true]
      rintro ⟨r, hr, hp⟩
      simp only [beq_iff_eq] at hp
      exact hnoT r hr hp
    have hM : results.any (fun r => r.status == "memory_exceeded") = false := by
      rw [Bool.eq_false_iff, Ne, List.any_eq_true]
      rintro ⟨r, hr, hp⟩
      simp only [beq_iff_eq] at hp
      exact hnoM r hr hp
    have hcount : ¬(results.countP (fun r => r.status == "passed") = testCases.length) := by
      intro he
      apply hnotall
      intro r hr
      have hcount' : results.countP (fun r => r.status == "passed") = results.length := by
        omega
      have := List.countP_eq_length.mp hcount' r hr
      simpa using this
    simp [aggregateResults, hC, hR, hT, hM, hcount]

/-- Witness for C3: a run with one compilation-error case and one passed
case is classified `compilation_error`. -/
theorem submission_status_priority_witness :
    (aggregateResults
        [{ status := "error", errorType := "compilation" }, { status := "passed" }]
        [{ input := "", output := "" }, { input := "", output := "" }]
        100).finalStatus = "compilation_error" :=
  (submission_status_priority
      [{ status := "error", errorType := "compilation" }, { status := "passed" }]
      [{ input := "", output := "" }, { input := "", output := "" }] 100 (by decide)).1
    ⟨{ status := "error", errorType := "compilation" }, by simp, rfl, rfl⟩

/-- Witness for C5 (amended): one passing case out of one, `maxScore`
100: the persisted score is bounded by 100. -/
theorem score_formula_amended_witness :
    (aggregateResults [{ status := "passed" }]
        [{ input := "", output := "" }] 100).score ≤ 100 :=
  (score_formula_amended [{ status := "passed" }] [{ input := "", output := "" }] 100
    (by decide) (by decide) (by decide)).2.1

/-- Claim C7, code bug.  The claim matches the evident intent: the
`catch` block's own classification (lines 735-741, modelled by
`isKilledTimeout`) marks a process killed with SIGTERM/SIGKILL after the
10000 ms budget as `timeout`.  But the block's first line reads
`startTime`, declared `const` inside the `try` block and out of scope in
the `catch`, so the handler raises `ReferenceError` before the
classification runs: a killed (slept-too-long) program never yields a
per-case `status = "timeout"`; evaluation aborts and the outer handler
records `runtime_error` instead of `time_limit_exceeded`.  Evaluated
here at the failing input: one test case whose process is killed with
SIGTERM — the kill satisfies the intended timeout condition, yet
`runTestCases` propagates `ReferenceError` with no result array. -/
theorem timeout_reference_error :
    perTestCaseTimeoutMs = 10000 ∧
    isKilledTimeout (ExecOutcome.err true (some "SIGTERM") "" "" "killed") = true ∧
    runTestCases "python" "import time\ntime.sleep(60)\n" [TestCase.mk "" ""] false
        (CompileOutcome.ok "" "")
        (fun _ => ExecOutcome.err true (some "SIGTERM") "" "" "killed")
        (fun _ => 0) (fun _ => 0) (fun _ => true)
      = Except.ok (RunOut.mk (Except.error referenceErrorMsg) []
          "import time\ntime.sleep(60)\n") ∧
    (processSubmissionAsync FailPoint.duringEvaluate [] [TestCase.mk "" ""]
        100).finalStatus = "runtime_error" :=
  ⟨rfl, rfl, rfl, rfl⟩

/-- Claim C10. The judging pipeline never produces a per-case status
`memory_exceeded` — every result it can return is `passed`, `failed`,
`error` or `timeout` — so `hasMemoryError` is always false and the
terminal status `memory_limit_exceeded` is unreachable through judging;
and the `memoryUsed` reported for a completed run is the mock value
`Math.floor(Math.random() * 1000) + 500`, a pseudo-random number in
`[500, 1500)`, not a measurement. -/
theorem no_memory_exceeded (language code : String) (testCases : List TestCase)
    (isWin : Bool) (compileOut : CompileOutcome) (runOut : Nat → ExecOutcome)
    (randMem execTime : Nat → Nat) (inputUnlinkOk : Nat → Bool) (out : RunOut)
    (rs : List RunResult) (maxScore : Nat)
    (hrand : ∀ i, randMem i < 1000)
    (h : runTestCases language code testCases isWin compileOut runOut randMem
        execTime inputUnlinkOk = Except.ok out)
    (hrs : out.outcome = Except.ok rs) :
    (∀ r ∈ rs,
        r.status = "passed" ∨ r.status = "failed" ∨ r.status = "error" ∨
          r.status = "timeout") ∧
    (aggregateResults rs testCases maxScore).hasMemoryError = false ∧
    ((aggregateResults rs testCases maxScore).finalStatus
        == "memory_limit_exceeded") = false ∧
    (∀ r ∈ rs, (r.status = "passed" ∨ r.status = "failed") →
        500 ≤ r.memoryUsed ∧ r.memoryUsed < 1500) := by
  obtain ⟨setup, hset, hws, hcases⟩ := runTestCases_ok_inv h
  have hstat : ∀ r ∈ rs,
      r.status = "passed" ∨ r.status = "failed" ∨ r.status = "error" ∨
        r.status = "timeout" := by
    intro r hr
    rcases hcases with ⟨st, me, hnc, hco, hres, hfs⟩ | ⟨hres, hrest⟩
    · rw [hres] at hrs
      obtain rfl := Except.ok.inj hrs.symm
      obtain ⟨tc, htc, hrfl⟩ := List.mem_map.mp hr
      rw [← hrfl]
      right; right; left; rfl
    · rw [hres] at hrs
      obtain ⟨j, tc, so, se, hrfl⟩ := runLoop_ok_mem hrs r hr
      rw [hrfl]
      rcases runOneCase_status tc so se (randMem j) (execTime j) with h1 | h1
      · left; exact h1
      · right; left; exact h1
  have hmem : rs.any (fun r => r.status == "memory_exceeded") = false := by
    rw [Bool.eq_false_iff, Ne, List.any_eq_true]
    rintro ⟨r, hr, hpx⟩
    simp only [beq_iff_eq] at hpx
    rcases hstat r hr with h1 | h1 | h1 | h1 <;> rw [h1] at hpx <;>
      exact absurd hpx (by decide)
  refine ⟨hstat, hmem, ?_, ?_⟩
  · simp only [aggregateResults, hmem]
    split_ifs <;> first | rfl | exact False.elim (by assumption)
  · intro r hr hpf
    rcases hcases with ⟨st, me, hnc, hco, hres, hfs⟩ | ⟨hres, hrest⟩
    · rw [hres] at hrs
      obtain rfl := Except.ok.inj hrs.symm
      obtain ⟨tc, htc, hrfl⟩ := List.mem_map.mp hr
      rw [← hrfl] at hpf
      rcases hpf with h1 | h1 <;> simp [compileFailResult] at h1
    · rw [hres] at hrs
      obtain ⟨j, tc, so, se, hrfl⟩ := runLoop_ok_mem hrs r hr
      rw [hrfl]
      rw [runOneCase_memory]
      have := hrand j
      omega

/-- Witness for C10: a passing Python run; `hasMemoryError` is false. -/
theorem no_memory_exceeded_witness :
    (aggregateResults
        [{ status := "passed", errorType := "", output := "1",
           executionTime := 3, memoryUsed := 507, error := "",
           compilationError := "" }]
        [TestCase.mk "" "1"] 100).hasMemoryError = false :=
  (no_memory_exceeded "python" "print(1)" [TestCase.mk "" "1"] false
      (CompileOutcome.ok "" "") (fun _ => ExecOutcome.ok "1\n" "") (fun _ => 7)
      (fun _ => 3) (fun _ => true)
      (RunOut.mk
        (Except.ok
          [{ status := "passed", errorType := "", output := "1",
             executionTime := 3, memoryUsed := 507, error := "",
             compilationError := "" }]) [] "print(1)")
      [{ status := "passed", errorType := "", output := "1",
         executionTime := 3, memoryUsed := 507, error := "",
         compilationError := "" }]
      100 (fun _ => by norm_num) rfl rfl).2.1

/-- Claim C6, counterexample. For a Java submission with no class
declaration, the judging pipeline (`runTestCases`) writes the raw
submitted text verbatim — not the synthesized `class Main` wrapper.
Concretely for the fragment `int x = 0;`: extraction finds no class, the
written source is the fragment itself, and that differs from the
wrapper. -/
theorem java_wrapper_counterexample :
    extractJavaClassName "int x = 0;" = none ∧
    runTestCases "java" "int x = 0;" [] false (CompileOutcome.ok "" "")
        (fun _ => ExecOutcome.ok "" "") (fun _ => 0) (fun _ => 0) (fun _ => true)
      = Except.ok (RunOut.mk (Except.ok []) [] "int x = 0;") ∧
    ("int x = 0;" == javaWrapper "int x = 0;") = false :=
  ⟨by decide, rfl, by decide⟩

/-- Claim C6, amended. For a Java submission whose comment-stripped source
has no `public class <Name>` and no `class <Name>` declaration: the
interactive compile endpoint synthesizes and writes the `public class
Main` wrapper whose `main` body is the raw text verbatim, while the
judging pipeline only falls back to the class name `Main` (affecting the
file name and commands) and writes the raw submitted text verbatim,
without synthesizing any wrapper. -/
theorem java_wrapper_amended (code : String)
    (hext : extractJavaClassName code = none) :
    (compileEndpointJavaSetup code).actualCode = javaWrapper code ∧
    (compileEndpointJavaSetup code).className = "Main" ∧
    (∀ setup, langSetup "java" code = some setup → setup.className = "Main") ∧
    (∀ testCases isWin compileOut runOut randMem execTime inputUnlinkOk out,
      runTestCases "java" code testCases isWin compileOut runOut randMem execTime
          inputUnlinkOk = Except.ok out →
        out.writtenSource = code) := by
  refine ⟨?_, ?_, ?_, ?_⟩
  · simp [compileEndpointJavaSetup, hext]
  · simp [compileEndpointJavaSetup, hext]
  · intro setup hset
    rw [show langSetup "java" code = some (LangSetup.mk ".java" true true
        ((extractJavaClassName code).getD "Main")) from rfl] at hset
    rw [← Option.some.inj hset]
    rw [hext]
    rfl
  · intro testCases isWin compileOut runOut randMem execTime inputUnlinkOk out hrun
    obtain ⟨setup, hset, hws, _⟩ := runTestCases_ok_inv hrun
    exact hws

/-- Witness for C6 (amended) at the fragment `int x = 0;`. -/
theorem java_wrapper_amended_witness :
    (compileEndpointJavaSetup "int x = 0;").actualCode = javaWrapper "int x = 0;" :=
  (java_wrapper_amended "int x = 0;" (by decide)).1

/-- Among the schema's languages, a resolved setup that compiles and is
not Java can only come from `cpp` or `c`. -/
theorem compiled_lang_cpp_or_c {language code : String} {setup : LangSetup}
    (hL : language ∈ validLanguages) (hset : langSetup language code = some setup)
    (hnc : setup.needsCompilation = true) (hj : setup.isJava = false) :
    language = "cpp" ∨ language = "c" := by
  fin_cases hL
  · rw [show langSetup "python" code = some (LangSetup.mk ".py" false false "")
        from rfl] at hset
    rw [← Option.some.inj hset] at hnc
    exact absurd hnc (by decide)
  · rw [show langSetup "javascript" code = some (LangSetup.mk ".js" false false "")
        from rfl] at hset
    rw [← Option.some.inj hset] at hnc
    exact absurd hnc (by decide)
  · rw [show langSetup "java" code = some (LangSetup.mk ".java" true true
        ((extractJavaClassName code).getD "Main")) from rfl] at hset
    rw [← Option.some.inj hset] at hj
    simp at hj
  · exact Or.inl rfl
  · exact Or.inr rfl
  · rw [show langSetup "go" code = some (LangSetup.mk ".go" false false "")
        from rfl] at hset
    rw [← Option.some.inj hset] at hnc
    exact absurd hnc (by decide)
  · rw [show langSetup "ruby" code = some (LangSetup.mk ".rb" false false "")
        from rfl] at hset
    rw [← Option.some.inj hset] at hnc
    exact absurd hnc (by decide)
  · rw [show langSetup "php" code = some (LangSetup.mk ".php" false false "")
        from rfl] at hset
    rw [← Option.some.inj hset] at hnc
    exact absurd hnc (by decide)

/-- Among the schema's languages, only Java's setup is marked Java, and
it compiles. -/
theorem langSetup_isJava_needsComp {language code : String} {setup : LangSetup}
    (hL : language ∈ validLanguages) (hset : langSetup language code = some setup)
    (hj : setup.isJava = true) : setup.needsCompilation = true := by
  fin_cases hL
  · rw [show langSetup "python" code = some (LangSetup.mk ".py" false false "")
        from rfl] at hset
    rw [← Option.some.inj hset] at hj
    exact absurd hj (by decide)
  · rw [show langSetup "javascript" code = some (LangSetup.mk ".js" false false "")
        from rfl] at hset
    rw [← Option.some.inj hset] at hj
    exact absurd hj (by decide)
  · rw [show langSetup "java" code = some (LangSetup.mk ".java" true true
        ((extractJavaClassName code).getD "Main")) from rfl] at hset
    rw [← Option.some.inj hset]
  · rw [show langSetup "cpp" code = some (LangSetup.mk ".cpp" true false "")
        from rfl] at hset
    rw [← Option.some.inj hset] at hj
    exact absurd hj (by decide)
  · rw [show langSetup "c" code = some (LangSetup.mk ".c" true false "")
        from rfl] at hset
    rw [← Option.some.inj hset] at hj
    exact absurd hj (by decide)
  · rw [show langSetup "go" code = some (LangSetup.mk ".go" false false "")
        from rfl] at hset
    rw [← Option.some.inj hset] at hj
    exact absurd hj (by decide)
  · rw [show langSetup "ruby" code = some (LangSetup.mk ".rb" false false "")
        from rfl] at hset
    rw [← Option.some.inj hset] at hj
    exact absurd hj (by decide)
  · rw [show langSetup "php" code = some (LangSetup.mk ".php" false false "")
        from rfl] at hset
    rw [← Option.some.inj hset] at hj
    exact absurd hj (by decide)

/-- Whatever survives the `finally` cleanup is not an attempt resource,
provided the pre-cleanup filesystem only holds resources the cleanup is
responsible for (plus non-resources such as leftover stdin files). -/
theorem cleanupFs_all_clean (language : String) (setup : LangSetup)
    (fsIn : List TempPath)
    (hcase :
      (setup.isJava = true ∧
        ∀ q ∈ fsIn, q.underJavaSubDir = true ∨ q.isAttemptResource = false) ∨
      (setup.isJava = false ∧
        (setup.needsCompilation && (language == "cpp" || language == "c")) = true ∧
        ∀ q ∈ fsIn, q = TempPath.sourceFile ∨ q = TempPath.execFile ∨
          q = TempPath.execExeFile ∨ q.isAttemptResource = false) ∨
      (setup.isJava = false ∧
        ∀ q ∈ fsIn, q = TempPath.sourceFile ∨ q.isAttemptResource = false)) :
    ∀ p ∈ cleanupFs language setup fsIn, p.isAttemptResource = false := by
  intro p hp
  rcases hcase with ⟨hj, hf⟩ | ⟨hj, hc, hf⟩ | ⟨hj, hf⟩
  · simp only [cleanupFs, hj, if_true] at hp
    obtain ⟨hmem, hpred⟩ := List.mem_filter.mp hp
    rcases hf p hmem with h1 | h1
    · rw [h1] at hpred
      exact absurd hpred (by decide)
    · exact h1
  · simp only [cleanupFs, hj, Bool.false_eq_true, if_false, hc, if_true] at hp
    obtain ⟨hp1, hpred2⟩ := List.mem_filter.mp hp
    obtain ⟨hp0, hpred1⟩ := List.mem_filter.mp hp1
    obtain ⟨hmem, hpred0⟩ := List.mem_filter.mp hp0
    rcases hf p hmem with h1 | h1 | h1 | h1
    · rw [h1] at hpred0
      exact absurd hpred0 (by decide)
    · rw [h1] at hpred1
      exact absurd hpred1 (by decide)
    · rw [h1] at hpred2
      exact absurd hpred2 (by decide)
    · exact h1
  · have hp1 : p ∈ fsIn.filter (fun q => q != TempPath.sourceFile) := by
      simp only [cleanupFs, hj, Bool.false_eq_true, if_false] at hp
      split_ifs at hp
      · exact (List.mem_filter.mp (List.mem_filter.mp hp).1).1
      · exact hp
    obtain ⟨hmem, hpred⟩ := List.mem_filter.mp hp1
    rcases hf p hmem with h1 | h1
    · rw [h1] at hpred
      exact absurd hpred (by decide)
    · exact h1

/-- Claim C1. For every execution attempt of the judging pipeline —
successful run, compile failure, runtime failure, or timeout — after
`runTestCases` returns, the attempt's temp resources (the source file,
any compiled executable including the platform `.exe` variant, and for
Java the per-attempt subdirectory with its contents) no longer exist:
the `finally` cleanup runs on every exit path.  `validLanguages` is the
submission schema's language enum; the pipeline stores languages
lowercased before judging. -/
theorem workspace_cleanup (language code : String) (testCases : List TestCase)
    (isWin : Bool) (compileOut : CompileOutcome) (runOut : Nat → ExecOutcome)
    (randMem execTime : Nat → Nat) (inputUnlinkOk : Nat → Bool) (out : RunOut)
    (hL : language ∈ validLanguages)
    (h : runTestCases language code testCases isWin compileOut runOut randMem
        execTime inputUnlinkOk = Except.ok out) :
    out.fs.all (fun p => !p.isAttemptResource) = true := by
  obtain ⟨setup, hset, hws, hcases⟩ := runTestCases_ok_inv h
  rw [List.all_eq_true]
  intro p hp
  rw [Bool.not_eq_true']
  rcases hcases with ⟨st, me, hnc, hco, hres, hfs⟩ | ⟨hres, hrest⟩
  · rw [hfs] at hp
    cases hj : setup.isJava with
    | true =>
        rw [hj, if_pos rfl] at hp
        refine cleanupFs_all_clean language setup _ (Or.inl ⟨hj, ?_⟩) p hp
        intro q hq
        simp only [List.mem_cons, List.mem_singleton, List.not_mem_nil, or_false] at hq
        rcases hq with rfl | rfl
        · left; rfl
        · left; rfl
    | false =>
        rw [hj] at hp
        rw [if_neg (by simp)] at hp
        rcases compiled_lang_cpp_or_c hL hset hnc hj with hcl | hcl <;> subst hcl <;>
          · refine cleanupFs_all_clean _ setup _ (Or.inr (Or.inl ⟨hj, ?_, ?_⟩)) p hp
            · rw [hnc]; rfl
            · intro q hq
              simp only [List.mem_singleton] at hq
              left
              exact hq
  · rcases hrest with ⟨hnc, ⟨so, se, hok⟩, hfs⟩ | ⟨hnc, hfs⟩
    · rw [hfs] at hp
      cases hj : setup.isJava with
      | true =>
          rw [hj, if_pos rfl, if_pos rfl] at hp
          refine cleanupFs_all_clean language setup _ (Or.inl ⟨hj, ?_⟩) p hp
          intro q hq
          rcases List.mem_append.mp hq with h1 | h1
          · rcases List.mem_append.mp h1 with h2 | h2
            · simp only [List.mem_cons, List.mem_singleton, List.not_mem_nil,
                or_false] at h2
              rcases h2 with rfl | rfl
              · left; rfl
              · left; rfl
            · simp only [List.mem_singleton] at h2
              subst h2
              left; rfl
          · right
            obtain ⟨i, rfl⟩ := mem_loopInputLeftovers h1
            rfl
      | false =>
          rw [hj] at hp
          rw [if_neg (by simp), if_neg (by simp)] at hp
          rcases compiled_lang_cpp_or_c hL hset hnc hj with hcl | hcl <;> subst hcl <;>
            · refine cleanupFs_all_clean _ setup _ (Or.inr (Or.inl ⟨hj, ?_, ?_⟩)) p hp
              · rw [hnc]; rfl
              · intro q hq
                rcases List.mem_append.mp hq with h1 | h1
                · rcases List.mem_append.mp h1 with h2 | h2
                  · simp only [List.mem_singleton] at h2
                    left
                    exact h2
                  · cases isWin with
                    | true =>
                        simp only [if_pos rfl, List.mem_singleton] at h2
                        right; right; left; exact h2
                    | false =>
                        rw [if_neg (by simp)] at h2
                        simp only [List.mem_singleton] at h2
                        right; left; exact h2
                · obtain ⟨i, rfl⟩ := mem_loopInputLeftovers h1
                  right; right; right
                  rfl
    · have hj : setup.isJava = false := by
        cases hjq : setup.isJava with
        | false => rfl
        | true =>
            have hcontra := langSetup_isJava_needsComp hL hset hjq
            rw [hnc] at hcontra
            exact absurd hcontra (by decide)
      rw [hfs] at hp
      rw [hj] at hp
      rw [if_neg (by simp)] at hp
      refine cleanupFs_all_clean language setup _ (Or.inr (Or.inr ⟨hj, ?_⟩)) p hp
      intro q hq
      rcases List.mem_append.mp hq with h1 | h1
      · simp only [List.mem_singleton] at h1
        left
        exact h1
      · right
        obtain ⟨i, rfl⟩ := mem_loopInputLeftovers h1
        rfl

/-- Witness for C1: a passing Python run leaves no attempt resources. -/
theorem workspace_cleanup_witness :
    (RunOut.mk
        (Except.ok
          [{ status := "passed", errorType := "", output := "1",
             executionTime := 3, memoryUsed := 507, error := "",
             compilationError := "" }]) [] "print(1)").fs.all
      (fun p => !p.isAttemptResource) = true :=
  workspace_cleanup "python" "print(1)" [TestCase.mk "" "1"] false
    (CompileOutcome.ok "" "") (fun _ => ExecOutcome.ok "1\n" "") (fun _ => 7)
    (fun _ => 3) (fun _ => true)
    (RunOut.mk
      (Except.ok
        [{ status := "passed", errorType := "", output := "1",
           executionTime := 3, memoryUsed := 507, error := "",
           compilationError := "" }]) [] "print(1)")
    (by decide) rfl

end Codify
